import Mathlib

/-!
# Verification of the GLP Papers document-metadata pipeline

A shallow embedding, in Lean 4, of the document-metadata pipeline of the
GLP Papers digital-archive frontend: document normalisation (year
extraction), filtering, tag aggregation, relatedness scoring, folder-tree
construction, statistics, and the legacy text renderer.

JavaScript strings are modelled as lists of characters (`Str`); JavaScript
`Map`s and plain objects used as dictionaries are modelled as insertion-ordered
association lists; the stable `Array.prototype.sort` (stable per ES2019) is
modelled by `List.mergeSort`.  Numbers that can be `NaN` in the source are
modelled by `JsNumber`.  Every definition follows the corresponding source
function in `manifestUtils.ts` / `textProcessor.ts`; host-library behaviour
(`parseInt`, `new Date`, `toLowerCase`, `localeCompare`) is modelled by
explicit functions whose doc comments state the modelling assumptions.
-/

/-- JavaScript strings, modelled as lists of characters. -/
abbrev Str := List Char

/-- Coerce a Lean string literal to the `Str` model. -/
def str (s : String) : Str := s.data

/-- ASCII decimal digit test (`0`–`9`). -/
def isAsciiDigit (c : Char) : Bool := 48 ≤ c.toNat && c.toNat ≤ 57

/-- ASCII lowercase letter test (`a`–`z`); this is the character class of the
`/[a-z]/g` regular expressions in `manifestUtils.ts`. -/
def isAsciiLowercase (c : Char) : Bool := 97 ≤ c.toNat && c.toNat ≤ 122

/-- ASCII uppercase letter test (`A`–`Z`). -/
def isAsciiUppercase (c : Char) : Bool := 65 ≤ c.toNat && c.toNat ≤ 90

/-- Models `String.prototype.toLowerCase` on the ASCII range: uppercase ASCII
letters are mapped to the corresponding lowercase letters and every other
character is kept.  (The archive's metadata strings are ASCII; the full
Unicode case mapping is not modelled.) -/
def asciiLower (s : Str) : Str :=
  s.map (fun c => if isAsciiUppercase c then Char.ofNat (c.toNat + 32) else c)

/-- The WhiteSpace/LineTerminator character class of ECMAScript, as used by
`String.prototype.trim` and by `parseInt`'s leading-whitespace skip. -/
def isJsWhitespace (c : Char) : Bool :=
  c.toNat = 9 || c.toNat = 10 || c.toNat = 11 || c.toNat = 12 || c.toNat = 13 ||
  c.toNat = 32 || c.toNat = 160 || c.toNat = 0x1680 ||
  (0x2000 ≤ c.toNat && c.toNat ≤ 0x200A) ||
  c.toNat = 0x2028 || c.toNat = 0x2029 || c.toNat = 0x202F ||
  c.toNat = 0x205F || c.toNat = 0x3000 || c.toNat = 0xFEFF

/-- Models `String.prototype.trim`: drop leading and trailing JS whitespace. -/
def jsTrim (s : Str) : Str :=
  ((s.dropWhile isJsWhitespace).reverse.dropWhile isJsWhitespace).reverse

/-- Leading decimal-digit run of a string, as a number; `none` when the string
does not start with a digit. -/
def parseLeadingNat (s : Str) : Option Nat :=
  let ds := s.takeWhile isAsciiDigit
  if ds = [] then none
  else some (ds.foldl (fun acc c => 10 * acc + (c.toNat - 48)) 0)

/-- Models the ECMAScript `parseInt` function with an unspecified radix on the
inputs this pipeline feeds it: skip leading whitespace, read an optional sign
and then a leading run of decimal digits; `none` models the `NaN` result.
(The legacy `0x` hexadecimal prefix case is not modelled; no date string in
this pipeline starts with it.) -/
def parseIntJs (s : Str) : Option Int :=
  match s.dropWhile isJsWhitespace with
  | '-' :: rest => (parseLeadingNat rest).map (fun n => -(n : Int))
  | '+' :: rest => (parseLeadingNat rest).map (fun n => (n : Int))
  | rest => (parseLeadingNat rest).map (fun n => (n : Int))

/-- A JavaScript number as it occurs in this pipeline's year fields: either a
genuine integer or `NaN` (which the source can produce, e.g. `1900 + NaN` in
the two-digit year branch). -/
inductive JsNumber : Type where
  | nan : JsNumber
  | int : Int → JsNumber
deriving DecidableEq, Repr

/-- The JavaScript `<` comparison on `JsNumber`: any comparison involving
`NaN` is false. -/
def jsLtNum : JsNumber → JsNumber → Bool
  | JsNumber.int a, JsNumber.int b => a < b
  | _, _ => false

/-- The JavaScript `>` comparison on `JsNumber`. -/
def jsGtNum : JsNumber → JsNumber → Bool
  | JsNumber.int a, JsNumber.int b => b < a
  | _, _ => false

/-- Models `new Date(s).getFullYear()` (as an `Option`: `none` is an invalid
date) for the ECMAScript Date Time String Format restricted to its date-only
forms `YYYY`, `YYYY-MM` and `YYYY-MM-DD`, evaluated in UTC.  Real engines
additionally accept implementation-specific fallback formats and
`getFullYear` uses the host time zone (which can shift a date-only form by
one year in zones west of UTC); no date string evaluated in this development
depends on either. -/
def jsDateFullYear (s : Str) : Option Int :=
  match s with
  | [y1, y2, y3, y4] =>
    if isAsciiDigit y1 && isAsciiDigit y2 && isAsciiDigit y3 && isAsciiDigit y4 then
      parseLeadingNat [y1, y2, y3, y4] |>.map (fun n => (n : Int))
    else none
  | [y1, y2, y3, y4, '-', m1, m2] =>
    if isAsciiDigit y1 && isAsciiDigit y2 && isAsciiDigit y3 && isAsciiDigit y4 &&
       isAsciiDigit m1 && isAsciiDigit m2 then
      match parseLeadingNat [y1, y2, y3, y4], parseLeadingNat [m1, m2] with
      | some y, some m => if 1 ≤ m ∧ m ≤ 12 then some (y : Int) else none
      | _, _ => none
    else none
  | [y1, y2, y3, y4, '-', m1, m2, '-', d1, d2] =>
    if isAsciiDigit y1 && isAsciiDigit y2 && isAsciiDigit y3 && isAsciiDigit y4 &&
       isAsciiDigit m1 && isAsciiDigit m2 && isAsciiDigit d1 && isAsciiDigit d2 then
      match parseLeadingNat [y1, y2, y3, y4], parseLeadingNat [m1, m2],
            parseLeadingNat [d1, d2] with
      | some y, some m, some d =>
        if 1 ≤ m ∧ m ≤ 12 ∧ 1 ≤ d ∧ d ≤ 31 then some (y : Int) else none
      | _, _, _ => none
    else none
  | _ => none

/-- Models `String.prototype.includes`: is `needle` a contiguous substring of
`hay`?  (Case handling is done by the callers via `asciiLower`, as in the
source.) -/
def jsIncludes (hay needle : Str) : Bool :=
  match hay with
  | [] => needle = []
  | _ :: t => needle.isPrefixOf hay || jsIncludes t needle

/-- The JavaScript `<` comparison on strings: lexicographic by code unit.
(Code units and code points agree on the Basic Multilingual Plane; the
archive's date strings are ASCII.) -/
def strLt : Str → Str → Bool
  | [], [] => false
  | [], _ :: _ => true
  | _ :: _, [] => false
  | a :: as, b :: bs =>
    if a.toNat < b.toNat then true
    else if b.toNat < a.toNat then false
    else strLt as bs

-- ============================================================================
-- Data model (types/archive.ts)
-- ============================================================================

/-- `DateInfo` from `types/archive.ts`: date information with confidence.
`document_date` is `string | null`; confidence values are the strings
`"high" | "medium" | "low" | "none"`. -/
structure DateInfo : Type where
  document_date : Option Str
  date_source : Str
  confidence : Str
  time_period : Option Str
deriving DecidableEq, Repr

/-- `CategoryInfo` from `types/archive.ts`. -/
structure CategoryInfo : Type where
  tags : List Str
  primary_type : Str
  confidence : Str
deriving DecidableEq, Repr

/-- `DocumentMetadata` from `types/archive.ts`. -/
structure DocumentMetadata : Type where
  file_path : Str
  file_name : Str
  date : DateInfo
  category : CategoryInfo
  summary : Str
deriving DecidableEq, Repr

/-- `FlatDocument` from `types/archive.ts`: the flattened document
representation the filtering/aggregation utilities work on. -/
structure FlatDocument : Type where
  metadata : DocumentMetadata
  filename : Str
  path : Str
  folderPath : Str
  date : Option Str
  year : Option JsNumber
  dateConfidence : Str
  tags : List Str
  type : Str
  typeConfidence : Str
  summary : Str
  textFilePath : Str
  analysisFilePath : Str
deriving DecidableEq, Repr

-- ============================================================================
-- Year extraction (manifestUtils.ts, extractYear)
-- ============================================================================

/-- `extractYear` from `manifestUtils.ts`.  The four branches are tried in
source order with first match winning: 8-character `YYYYMMDD` (first four
characters parsed, accepted in [1900, 2100]), 4-character `YYYY` (same
bound), 2-character `YY` (`≤ 30` maps to 2000+, else 1900+; a failed
`parseInt` here yields `1900 + NaN = NaN`, which the source returns), and
finally a generic `new Date(...)` parse.  `none` models the `null` result. -/
def extractYear (dateInfo : DateInfo) : Option JsNumber :=
  match dateInfo.document_date with
  | none => none
  | some dateStr =>
    if dateStr = [] then none
    else
      let try8 : Option JsNumber :=
        if dateStr.length = 8 then
          match parseIntJs (dateStr.take 4) with
          | some y => if 1900 ≤ y ∧ y ≤ 2100 then some (JsNumber.int y) else none
          | none => none
        else none
      let try4 : Option JsNumber :=
        if dateStr.length = 4 then
          match parseIntJs dateStr with
          | some y => if 1900 ≤ y ∧ y ≤ 2100 then some (JsNumber.int y) else none
          | none => none
        else none
      let try2 : Option JsNumber :=
        if dateStr.length = 2 then
          match parseIntJs dateStr with
          | some y => some (JsNumber.int (if y ≤ 30 then 2000 + y else 1900 + y))
          | none => some JsNumber.nan
        else none
      let tryDate : Option JsNumber := (jsDateFullYear dateStr).map JsNumber.int
      try8 <|> try4 <|> try2 <|> tryDate

/-- A `DateInfo` whose raw date value is the given string (helper for
concrete evaluations). -/
def dateInfoOf (s : String) : DateInfo :=
  { document_date := some (str s), date_source := str "ai", confidence := str "high",
    time_period := none }

-- ============================================================================
-- Claim C1: year-extraction test vectors
-- ============================================================================

/-- C1, counterexample: the claim asserts `extractYear "1899"` is absent
because the 4-digit branch rejects years outside [1900, 2100]; in the source
the rejected value falls through to the `new Date("1899")` fallback, which
parses the string as a calendar year, so the result is the year 1899, not
absent. -/
theorem extractYear_1899_not_absent :
    extractYear (dateInfoOf "1899") = some (JsNumber.int 1899) := by decide

/-- C1, amended: the year-extraction test vectors as the code computes them:
"19970821" ↦ 1997, "1997" ↦ 1997, "97" ↦ 1997, "24" ↦ 2024,
"not-a-date" ↦ absent, and "1899" ↦ 1899 (the 4-digit branch rejects it but
the generic date-parse fallback accepts it). -/
theorem extractYear_spec_vectors :
    extractYear (dateInfoOf "19970821") = some (JsNumber.int 1997) ∧
    extractYear (dateInfoOf "1997") = some (JsNumber.int 1997) ∧
    extractYear (dateInfoOf "97") = some (JsNumber.int 1997) ∧
    extractYear (dateInfoOf "24") = some (JsNumber.int 2024) ∧
    extractYear (dateInfoOf "not-a-date") = none ∧
    extractYear (dateInfoOf "1899") = some (JsNumber.int 1899) := by decide

-- ============================================================================
-- Filter engine (manifestUtils.ts, filterDocuments)
-- ============================================================================

/-- The `dateRange` member of `SearchCriteria` (`{start, end}` in the source;
the `end` field is called `stop` here because `end` is a Lean keyword). -/
structure DateRangeFilter : Type where
  start : Option Str
  stop : Option Str
deriving DecidableEq, Repr

/-- `SearchCriteria` from `types/archive.ts`; every member is optional. -/
structure SearchCriteria : Type where
  query : Option Str := none
  tags : Option (List Str) := none
  types : Option (List Str) := none
  dateRange : Option DateRangeFilter := none
  minConfidence : Option Str := none
  folderPath : Option Str := none
deriving DecidableEq, Repr

/-- JavaScript truthiness of a nullable string: `null` and `""` are falsy. -/
def optStrTruthy : Option Str → Bool
  | some s => s ≠ []
  | none => false

/-- The `confidenceLevels` record of `filterDocuments` together with the
`|| 0` default: `{none: 0, low: 1, medium: 2, high: 3}`, any other key
mapping to 0 (the `none ↦ 0` entry and the falsy default coincide). -/
def confidenceLevel (s : Str) : Nat :=
  if s = str "none" then 0
  else if s = str "low" then 1
  else if s = str "medium" then 2
  else if s = str "high" then 3
  else 0

/-- The predicate of `filterDocuments` (`manifestUtils.ts`): one conjunct per
criterion, in source order; a criterion whose value is unset (or falsy)
passes every document.  The free-text criterion matches the lowercased query
against the lowercased summary and filename only. -/
def docMatches (criteria : SearchCriteria) (doc : FlatDocument) : Bool :=
  (match criteria.query with
   | some q =>
     if q ≠ [] then
       let query := asciiLower q
       jsIncludes (asciiLower doc.summary) query ||
       jsIncludes (asciiLower doc.filename) query
     else true
   | none => true) &&
  (match criteria.tags with
   | some ts =>
     if ts ≠ [] then ts.any (fun tag => doc.tags.contains tag) else true
   | none => true) &&
  (match criteria.types with
   | some ts => if ts ≠ [] then ts.contains doc.type else true
   | none => true) &&
  (match criteria.dateRange with
   | some dr =>
     !(optStrTruthy dr.start && optStrTruthy doc.date &&
       strLt (doc.date.getD []) (dr.start.getD [])) &&
     !(optStrTruthy dr.stop && optStrTruthy doc.date &&
       strLt (dr.stop.getD []) (doc.date.getD []))
   | none => true) &&
  (match criteria.minConfidence with
   | some mc =>
     if mc ≠ [] then confidenceLevel mc ≤ confidenceLevel doc.dateConfidence
     else true
   | none => true) &&
  (match criteria.folderPath with
   | some fp => if fp ≠ [] then fp.isPrefixOf doc.folderPath else true
   | none => true)

/-- `filterDocuments` from `manifestUtils.ts`. -/
def filterDocuments (documents : List FlatDocument) (criteria : SearchCriteria) :
    List FlatDocument :=
  documents.filter (docMatches criteria)

/-- A concrete `FlatDocument` (helper for evaluations). -/
def mkDoc (filename path folderPath summary : String) (tags : List String)
    (ty : String) : FlatDocument :=
  { metadata :=
      { file_path := str path, file_name := str filename,
        date := { document_date := none, date_source := str "",
                  confidence := str "none", time_period := none },
        category := { tags := tags.map str, primary_type := str ty,
                      confidence := str "high" },
        summary := str summary },
    filename := str filename, path := str path, folderPath := str folderPath,
    date := none, year := none, dateConfidence := str "none",
    tags := tags.map str, type := str ty, typeConfidence := str "high",
    summary := str summary, textFilePath := str "", analysisFilePath := str "" }

-- ============================================================================
-- Claim C2: free-text matching fields
-- ============================================================================

/-- A document whose full path contains the query `"zq"` while its summary
and filename do not. -/
def pathOnlyDoc : FlatDocument :=
  mkDoc "f.txt" "zq/f.txt" "zq" "no match here" [] "letter"

/-- C2, counterexample: the claim says a document is kept when the lowercased
query is a substring of its full path; `filterDocuments` drops `pathOnlyDoc`
for query `"zq"` even though `"zq"` is a substring of its path — the
low-level filter consults only summary and filename. -/
theorem filterDocuments_ignores_path :
    filterDocuments [pathOnlyDoc] { query := some (str "zq") } = [] ∧
    jsIncludes (asciiLower pathOnlyDoc.path) (asciiLower (str "zq")) = true := by
  decide

/-- C2, amended: with a non-empty free-text query and all other criteria
unset, `filterDocuments` keeps a document if and only if the lowercased
query is a substring of the document's summary or of its filename (the full
path is not consulted; the path check exists only in the Browse page's
separate inline filter). -/
theorem filterDocuments_query_match (docs : List FlatDocument)
    (c : SearchCriteria) (q : Str) (hq : c.query = some q) (hq' : q ≠ [])
    (htags : c.tags = none) (htypes : c.types = none) (hdr : c.dateRange = none)
    (hmc : c.minConfidence = none) (hfp : c.folderPath = none)
    (d : FlatDocument) :
    d ∈ filterDocuments docs c ↔
      d ∈ docs ∧ (jsIncludes (asciiLower d.summary) (asciiLower q) = true ∨
                  jsIncludes (asciiLower d.filename) (asciiLower q) = true) := by
  simp [filterDocuments, List.mem_filter, docMatches, hq, hq', htags, htypes,
    hdr, hmc, hfp]

/-- Witness for `filterDocuments_query_match` at a concrete document and
query. -/
theorem filterDocuments_query_match_witness :
    pathOnlyDoc ∈ filterDocuments [pathOnlyDoc] { query := some (str "here") } ↔
      pathOnlyDoc ∈ [pathOnlyDoc] ∧
      (jsIncludes (asciiLower pathOnlyDoc.summary) (asciiLower (str "here")) = true ∨
       jsIncludes (asciiLower pathOnlyDoc.filename) (asciiLower (str "here")) = true) :=
  filterDocuments_query_match [pathOnlyDoc] { query := some (str "here") }
    (str "here") rfl (by decide) rfl rfl rfl rfl rfl pathOnlyDoc

-- ============================================================================
-- Claim C9: filtering is order-preserving and non-mutating
-- ============================================================================

/-- C9: `filterDocuments` is order-preserving and non-mutating: the result is
a subsequence of the input (original order, no new or altered documents),
and — the pipeline being modelled purely, with the source predicate
mutating nothing — applying the same criteria twice yields exactly the
same result. -/
theorem filterDocuments_sublist_idempotent (docs : List FlatDocument)
    (c : SearchCriteria) :
    List.Sublist (filterDocuments docs c) docs ∧
    filterDocuments (filterDocuments docs c) c = filterDocuments docs c := by
  constructor
  · exact List.filter_sublist docs
  · rw [filterDocuments, filterDocuments, List.filter_filter]
    apply List.filter_congr
    intro a _
    simp [Bool.and_self]

-- ============================================================================
-- Tag aggregation (manifestUtils.ts, getTopTagsFromDocuments)
-- ============================================================================

/-- `tag.replace(/[a-z]/g, '').length`: the number of characters of a tag
that are not ASCII lowercase letters (for all-letter tags, its number of
uppercase letters).  Used to pick the canonical display form of a merged
tag. -/
def upperScore (t : Str) : Nat := (t.filter (fun c => !isAsciiLowercase c)).length

/-- One step of the case-insensitive tag merge of `getTopTagsFromDocuments`:
a JS `Map` keyed by the lowercased tag, holding `{originalTag, count}`,
modelled as an insertion-ordered association list
(key, originalTag, count).  On an existing key the count is bumped and the
original tag replaced when `upperScore tag ≥ upperScore existing` (so an
equal score lets the newer variant win). -/
def tagMapInsert (m : List (Str × Str × Nat)) (tag : Str) : List (Str × Str × Nat) :=
  let lower := asciiLower tag
  if m.any (fun kv => kv.1 = lower) then
    m.map (fun kv =>
      if kv.1 = lower then
        (kv.1, if upperScore kv.2.1 ≤ upperScore tag then tag else kv.2.1, kv.2.2 + 1)
      else kv)
  else m ++ [(lower, tag, 1)]

/-- `getTopTagsFromDocuments` from `manifestUtils.ts` (the `limit` parameter
defaults to 50 in the source).  The final `.sort((a, b) => b.count - a.count)`
(stable per ES2019) is modelled by `insertionSort`, which is stable and
computes the same list as any stable sort for this comparator. -/
def getTopTagsFromDocuments (documents : List FlatDocument) (limit : Nat) :
    List (Str × Nat) :=
  let tagCounts := documents.foldl (fun m doc => doc.tags.foldl tagMapInsert m) []
  ((tagCounts.map (fun kv => (kv.2.1, kv.2.2))).insertionSort
    (fun a b => b.2 ≤ a.2)).take limit

-- ============================================================================
-- Claim C3: canonical form of a tag merge on ties
-- ============================================================================

/-- A document tagged `"Ab"` (one non-lowercase character). -/
def tieDocFirst : FlatDocument := mkDoc "a.txt" "a.txt" "f" "s" ["Ab"] "letter"

/-- A document tagged `"aB"` (also one non-lowercase character). -/
def tieDocSecond : FlatDocument := mkDoc "b.txt" "b.txt" "f" "s" ["aB"] "letter"

/-- C3, counterexample: merging the case variants `"Ab"` (seen first) and
`"aB"` (seen second), which have the same number of uppercase letters, the
merged entry displays `"aB"` — the later-seen variant, not the first-seen
one the claim promises (the source compares with `>=`, which lets the newer
variant win ties). -/
theorem getTopTags_tie_not_first_seen :
    getTopTagsFromDocuments [tieDocFirst, tieDocSecond] 50 = [(str "aB", 2)] := by
  decide

/-- C3, amended: when two case variants of a tag with the same `upperScore`
(number of non-lowercase characters) are merged, the canonical display form
is the most recently seen variant: merging a document tagged `t₁` and then
one tagged `t₂`, with equal lowercasings and equal scores, yields the single
entry `(t₂, 2)`. -/
theorem getTopTags_tie_keeps_latest (d1 d2 : FlatDocument) (t1 t2 : Str)
    (h1 : d1.tags = [t1]) (h2 : d2.tags = [t2])
    (hl : asciiLower t1 = asciiLower t2) (hs : upperScore t1 = upperScore t2) :
    getTopTagsFromDocuments [d1, d2] 50 = [(t2, 2)] := by
  simp [getTopTagsFromDocuments, tagMapInsert, h1, h2, hl, hs,
    List.insertionSort]

/-- Witness for `getTopTags_tie_keeps_latest` at concrete documents. -/
theorem getTopTags_tie_keeps_latest_witness :
    getTopTagsFromDocuments [tieDocFirst, tieDocSecond] 50 = [(str "aB", 2)] ∧
    asciiLower (str "Ab") = asciiLower (str "aB") ∧
    upperScore (str "Ab") = upperScore (str "aB") :=
  ⟨getTopTags_tie_keeps_latest tieDocFirst tieDocSecond (str "Ab") (str "aB")
      rfl rfl (by decide) (by decide),
    by decide, by decide⟩

-- ============================================================================
-- Relatedness engine (manifestUtils.ts, findRelatedDocuments)
-- ============================================================================

/-- The relevance score of `findRelatedDocuments`:
`doc.tags.filter((tag) => document.tags.includes(tag)).length`. -/
def sharedTagCount (document doc : FlatDocument) : Nat :=
  (doc.tags.filter (fun tag => document.tags.contains tag)).length

/-- `findRelatedDocuments` from `manifestUtils.ts` (the `limit` parameter
defaults to 5 in the source): filter out the document itself (by path),
score every other document by shared-tag count, drop zero scores, sort by
descending score (`.sort((a, b) => b.score - a.score)`, stable per ES2019,
modelled by the stable `insertionSort`), and return the first `limit`
documents. -/
def findRelatedDocuments (document : FlatDocument)
    (allDocuments : List FlatDocument) (limit : Nat) : List FlatDocument :=
  let scoredDocs :=
    (((allDocuments.filter (fun doc => decide (doc.path ≠ document.path))).map
        (fun doc => (doc, sharedTagCount document doc))).filter
      (fun item => decide (0 < item.2))).insertionSort (fun a b => b.2 ≤ a.2)
  (scoredDocs.take limit).map (fun item => item.1)

-- ============================================================================
-- Claim C6: relatedness is irreflexive, bounded, sorted and stable
-- ============================================================================

/-- Every element of the scored candidate list of `findRelatedDocuments` has
a different path from the input document, a positive score, and carries
exactly its shared-tag count as score. -/
theorem mem_relatedCandidates {d : FlatDocument} {docs : List FlatDocument}
    {pr : FlatDocument × Nat}
    (h : pr ∈ (((docs.filter (fun doc => decide (doc.path ≠ d.path))).map
        (fun doc => (doc, sharedTagCount d doc))).filter
      (fun item => decide (0 < item.2)))) :
    pr.1.path ≠ d.path ∧ 0 < pr.2 ∧ pr.2 = sharedTagCount d pr.1 := by
  rcases List.mem_filter.mp h with ⟨hmap, hpos⟩
  rcases List.mem_map.mp hmap with ⟨doc, hdoc, rfl⟩
  rcases List.mem_filter.mp hdoc with ⟨_, hne⟩
  exact ⟨by simpa using hne, by simpa using hpos, rfl⟩

/-- C6: the relatedness engine is irreflexive and bounded: the result never
contains a document with the input's path (in particular never the input
document itself), contains only documents sharing at least one tag with the
input, has at most `limit` entries (the caller's default is 5), is ordered
by descending shared-tag count, and keeps tied documents in their original
collection order (the filtered equal-score runs of the result are
subsequences of the corresponding runs of the input collection). -/
theorem findRelatedDocuments_spec (d : FlatDocument) (docs : List FlatDocument)
    (limit : Nat) :
    (∀ x ∈ findRelatedDocuments d docs limit,
        x.path ≠ d.path ∧ 0 < sharedTagCount d x)
    ∧ (findRelatedDocuments d docs limit).length ≤ limit
    ∧ (findRelatedDocuments d docs limit).Pairwise
        (fun a b => sharedTagCount d b ≤ sharedTagCount d a)
    ∧ ∀ s : Nat,
        List.Sublist
          ((findRelatedDocuments d docs limit).filter
            (fun x => decide (sharedTagCount d x = s)))
          (docs.filter (fun x =>
            decide (x.path ≠ d.path ∧ 0 < sharedTagCount d x ∧
              sharedTagCount d x = s))) := by
  classical
  set r : FlatDocument × Nat → FlatDocument × Nat → Prop :=
    fun a b => b.2 ≤ a.2 with hr
  haveI : IsTotal (FlatDocument × Nat) r := ⟨fun a b => le_total b.2 a.2⟩
  haveI : IsTrans (FlatDocument × Nat) r :=
    ⟨fun _ _ _ h1 h2 => le_trans h2 h1⟩
  set base := docs.filter (fun doc => decide (doc.path ≠ d.path)) with hbase
  set cand := ((base.map (fun doc => (doc, sharedTagCount d doc))).filter
      (fun item => decide (0 < item.2))) with hcand
  set sorted := cand.insertionSort r with hsorted
  have hres : findRelatedDocuments d docs limit =
      (sorted.take limit).map (fun item => item.1) := rfl
  have hmem_sorted : ∀ pr ∈ sorted,
      pr.1.path ≠ d.path ∧ 0 < pr.2 ∧ pr.2 = sharedTagCount d pr.1 := by
    intro pr hpr
    exact mem_relatedCandidates ((List.mem_insertionSort r).mp hpr)
  have hmem_take : ∀ pr ∈ sorted.take limit,
      pr.1.path ≠ d.path ∧ 0 < pr.2 ∧ pr.2 = sharedTagCount d pr.1 := by
    intro pr hpr
    exact hmem_sorted pr ((sorted.take_sublist limit).subset hpr)
  refine ⟨?_, ?_, ?_, ?_⟩
  · intro x hx
    rw [hres] at hx
    rcases List.mem_map.mp hx with ⟨pr, hpr, rfl⟩
    rcases hmem_take pr hpr with ⟨hne, hpos, hsc⟩
    exact ⟨hne, hsc ▸ hpos⟩
  · rw [hres]
    simp only [List.length_map, List.length_take]
    exact min_le_left _ _
  · rw [hres]
    have hsort : sorted.Pairwise r := List.sorted_insertionSort r cand
    have htake : (sorted.take limit).Pairwise r :=
      hsort.sublist (sorted.take_sublist limit)
    rw [List.pairwise_map]
    refine htake.imp_of_mem ?_
    intro a b ha hb hab
    rcases hmem_take a ha with ⟨_, _, hsa⟩
    rcases hmem_take b hb with ⟨_, _, hsb⟩
    calc sharedTagCount d b.1 = b.2 := hsb.symm
      _ ≤ a.2 := hab
      _ = sharedTagCount d a.1 := hsa
  · intro s
    set q₁ : FlatDocument × Nat → Bool :=
      fun pr => decide (sharedTagCount d pr.1 = s) with hq₁
    have hA : (findRelatedDocuments d docs limit).filter
        (fun x => decide (sharedTagCount d x = s)) =
        ((sorted.take limit).filter q₁).map (fun item => item.1) := by
      rw [hres, List.filter_map]
      rfl
    have step1 : List.Sublist ((sorted.take limit).filter q₁)
        (sorted.filter q₁) :=
      (sorted.take_sublist limit).filter q₁
    have hcfq : ∀ pr ∈ cand.filter q₁, pr.2 = s := by
      intro pr hpr
      rcases List.mem_filter.mp hpr with ⟨hc, hq⟩
      rcases mem_relatedCandidates hc with ⟨_, _, hsc⟩
      have := of_decide_eq_true hq
      omega
    have hpw : (cand.filter q₁).Pairwise r := by
      apply List.pairwise_of_forall_mem_list
      intro a ha b hb
      show b.2 ≤ a.2
      rw [hcfq a ha, hcfq b hb]
    have sub : List.Sublist (cand.filter q₁) sorted :=
      List.sublist_insertionSort hpw (cand.filter_sublist)
    have sub' : List.Sublist (cand.filter q₁) (sorted.filter q₁) := by
      have := sub.filter q₁
      rwa [List.filter_eq_self.mpr
        (fun a ha => (List.mem_filter.mp ha).2)] at this
    have hperm : (sorted.filter q₁).Perm (cand.filter q₁) :=
      (cand.perm_insertionSort r).filter q₁
    have step2 : sorted.filter q₁ = cand.filter q₁ :=
      (sub'.eq_of_length hperm.symm.length_eq).symm
    have step34 : (cand.filter q₁).map (fun item => item.1) =
        docs.filter (fun x =>
          decide (x.path ≠ d.path ∧ 0 < sharedTagCount d x ∧
            sharedTagCount d x = s)) := by
      rw [hcand, hbase, List.filter_filter, List.filter_map, List.map_map,
        List.filter_filter]
      simp only [Function.comp_def, id_eq, List.map_id_fun', List.map_id']
      apply List.filter_congr
      intro x _
      by_cases h1 : x.path = d.path <;>
        by_cases h2 : 0 < sharedTagCount d x <;>
          by_cases h3 : sharedTagCount d x = s <;>
            simp [hq₁, h1, h2, h3]
    rw [hA, ← step34, ← step2]
    exact step1.map _

/-- Witness for `findRelatedDocuments_spec` at a concrete document and
collection. -/
theorem findRelatedDocuments_spec_witness :
    (findRelatedDocuments tieDocFirst [tieDocFirst, tieDocSecond] 5).length ≤ 5 :=
  (findRelatedDocuments_spec tieDocFirst [tieDocFirst, tieDocSecond] 5).2.1

-- ============================================================================
-- Statistics (manifestUtils.ts, calculateStatsFromDocuments)
-- ============================================================================

/-- `rec[k] = (rec[k] ?? 0) + 1` on a JS object used as a string-keyed
counter, modelled as an insertion-ordered association list.
(`Object.entries` enumerates non-integer-like string keys in insertion
order; the tag/type/folder keys of this archive are not integer-like.) -/
def bumpCount (m : List (Str × Nat)) (k : Str) : List (Str × Nat) :=
  if m.any (fun kv => kv.1 = k) then
    m.map (fun kv => if kv.1 = k then (kv.1, kv.2 + 1) else kv)
  else m ++ [(k, 1)]

/-- `DateRange` from `types/archive.ts`.  `coverage_percentage` is an exact
rational here; the source computes it in binary floating point, but the only
place this development evaluates it (the empty collection) is exact. -/
structure DateRange : Type where
  earliest : JsNumber
  latest : JsNumber
  documents_with_dates : Nat
  coverage_percentage : ℚ
deriving DecidableEq, Repr

/-- `ArchiveStats` from `types/archive.ts` (the record-typed members are
association lists, and the `{tag, count}` / `{type, count}` objects are
pairs). -/
structure ArchiveStats : Type where
  totalDocuments : Nat
  totalFolders : Nat
  documentTypes : List (Str × Nat)
  topTags : List (Str × Nat)
  dateRange : DateRange
  documentsPerFolder : List (Str × Nat)
deriving DecidableEq, Repr

/-- The accumulator of the `documents.forEach` loop of
`calculateStatsFromDocuments`: tag/type/folder counters, the folder `Set`
(modelled as a first-occurrence list), the dated-document count, and the
running earliest/latest year (`number | null`). -/
structure StatsAcc : Type where
  tagCounts : List (Str × Nat)
  typeCounts : List (Str × Nat)
  folderCounts : List (Str × Nat)
  folders : List Str
  datedCount : Nat
  earliest : Option JsNumber
  latest : Option JsNumber
deriving DecidableEq, Repr

/-- One iteration of the `documents.forEach` loop of
`calculateStatsFromDocuments`. -/
def statsStep (acc : StatsAcc) (doc : FlatDocument) : StatsAcc :=
  let tagCounts := doc.tags.foldl bumpCount acc.tagCounts
  let typeCounts := bumpCount acc.typeCounts doc.type
  let folders :=
    if acc.folders.contains doc.folderPath then acc.folders
    else acc.folders ++ [doc.folderPath]
  let folderCounts := bumpCount acc.folderCounts doc.folderPath
  match doc.year with
  | some y =>
    { tagCounts := tagCounts, typeCounts := typeCounts,
      folderCounts := folderCounts, folders := folders,
      datedCount := acc.datedCount + 1,
      earliest := some (match acc.earliest with
        | none => y
        | some e => if jsLtNum y e then y else e),
      latest := some (match acc.latest with
        | none => y
        | some l0 => if jsGtNum y l0 then y else l0) }
  | none =>
    { tagCounts := tagCounts, typeCounts := typeCounts,
      folderCounts := folderCounts, folders := folders,
      datedCount := acc.datedCount, earliest := acc.earliest,
      latest := acc.latest }

/-- `calculateStatsFromDocuments` from `manifestUtils.ts`.  The guarded
coverage percentage is `(datedCount / documents.length) * 100` only when the
collection is non-empty, and `0` otherwise; `earliest ?? 0` and
`latest ?? 0` default the year bounds to 0. -/
def calculateStatsFromDocuments (documents : List FlatDocument) : ArchiveStats :=
  let acc := documents.foldl statsStep
    { tagCounts := [], typeCounts := [], folderCounts := [], folders := [],
      datedCount := 0, earliest := none, latest := none }
  { totalDocuments := documents.length,
    totalFolders := acc.folders.length,
    documentTypes := acc.typeCounts,
    topTags := acc.tagCounts.insertionSort (fun a b => b.2 ≤ a.2),
    dateRange :=
      { earliest := acc.earliest.getD (JsNumber.int 0),
        latest := acc.latest.getD (JsNumber.int 0),
        documents_with_dates := acc.datedCount,
        coverage_percentage :=
          if 0 < documents.length then
            ((acc.datedCount : ℚ) / (documents.length : ℚ)) * 100
          else 0 },
    documentsPerFolder := acc.folderCounts }

-- ============================================================================
-- Claim C10: statistics are total on the empty collection
-- ============================================================================

/-- C10: on the empty document list, `calculateStatsFromDocuments` returns
zero totals, a date-coverage percentage of exactly 0 (the division by the
document count is guarded by the length check, so no division happens), and
date-range bounds defaulting to 0. -/
theorem calculateStats_empty :
    (calculateStatsFromDocuments []).totalDocuments = 0 ∧
    (calculateStatsFromDocuments []).totalFolders = 0 ∧
    (calculateStatsFromDocuments []).dateRange.coverage_percentage = 0 ∧
    (calculateStatsFromDocuments []).dateRange.earliest = JsNumber.int 0 ∧
    (calculateStatsFromDocuments []).dateRange.latest = JsNumber.int 0 ∧
    (calculateStatsFromDocuments []).dateRange.documents_with_dates = 0 := by
  refine ⟨rfl, rfl, ?_, rfl, rfl, rfl⟩
  simp [calculateStatsFromDocuments]

-- ============================================================================
-- Text renderer (textProcessor.ts)
-- ============================================================================

/-- The backtick character, written via its code point. -/
def backtickChar : Char := Char.ofNat 96

/-- Split a character list at every occurrence of `sep`; models
`String.prototype.split` with a single-character separator (`"".split` is
`[""]`, a trailing separator yields a trailing empty component). -/
def splitChar (sep : Char) : Str → List Str
  | [] => [[]]
  | c :: cs =>
    match splitChar sep cs with
    | [] => [[]]
    | l :: ls => if c = sep then [] :: l :: ls else (c :: l) :: ls

/-- Join components with `sep`; models `Array.prototype.join` with a
single-character separator. -/
def joinChar (sep : Char) : List Str → Str
  | [] => []
  | [l] => l
  | l :: ls => l ++ sep :: joinChar sep ls

/-- First-character test: models `String.prototype.startsWith` with a
one-character argument. -/
def startsWithChar (t : Str) (c : Char) : Bool :=
  match t with
  | [] => false
  | a :: _ => a = c

/-- The `for (const line of lines)` loop of `stripFormattingCodes`, with the
`headerEnded` flag threaded through: before content starts, lines whose trim
starts with `;` or `*` are skipped, blank lines are silently dropped (not
pushed), and the first non-blank non-directive line flips `headerEnded`;
afterwards every line is kept verbatim. -/
def stripLoop : Bool → List Str → List Str
  | _, [] => []
  | headerEnded, line :: rest =>
    let trimmed := jsTrim line
    if !headerEnded &&
        (startsWithChar trimmed ';' || startsWithChar trimmed '*') then
      stripLoop headerEnded rest
    else
      let headerEnded2 :=
        if !headerEnded && decide (0 < trimmed.length) &&
            !startsWithChar trimmed ';' && !startsWithChar trimmed '*' then
          true
        else headerEnded
      if headerEnded2 then line :: stripLoop headerEnded2 rest
      else stripLoop headerEnded2 rest

/-- `stripFormattingCodes` from `textProcessor.ts`: split into lines, run the
header-skipping loop, join with newlines and trim. -/
def stripFormattingCodes (text : Str) : Str :=
  jsTrim (joinChar '\n' (stripLoop false (splitChar '\n' text)))

/-- The global greedy regex replace `text.replace(/`\d+/g, '')` of
`decodeSpecialCharacters`, as a left-to-right scan: a backtick followed by
at least one digit is deleted together with the whole following digit run
(the Boolean state records that a digit run opened by a backtick is being
consumed); every other character is kept. -/
def removeBacktickRuns : Bool → Str → Str
  | _, [] => []
  | skipping, c :: cs =>
    if skipping && isAsciiDigit c then removeBacktickRuns true cs
    else if decide (c = backtickChar) &&
        (match cs with | d :: _ => isAsciiDigit d | [] => false) then
      removeBacktickRuns true cs
    else c :: removeBacktickRuns false cs

/-- `decodeSpecialCharacters` from `textProcessor.ts`: the only implemented
decoding is the outright deletion of backtick-number codes (the function is
a self-described placeholder; it emits no markup). -/
def decodeSpecialCharacters (text : Str) : Str :=
  removeBacktickRuns false text

/-- One word step of the long-line wrapper of `wrapLongLines`: the state is
(already emitted lines, current line). -/
def wrapLineStep (maxLength : Nat) (st : List Str × Str) (word : Str) :
    List Str × Str :=
  if st.2.length + word.length + 1 ≤ maxLength then
    (st.1, st.2 ++ (if st.2 ≠ [] then ' ' :: word else word))
  else
    ((if st.2 ≠ [] then st.1 ++ [st.2] else st.1), word)

/-- `wrapLongLines` from `textProcessor.ts`: lines not exceeding `maxLength`
are kept; longer lines are re-broken at spaces, never mid-word. -/
def wrapLongLines (text : Str) (maxLength : Nat) : Str :=
  let lines := splitChar '\n' text
  let wrappedLines := lines.foldl
    (fun acc line =>
      if line.length ≤ maxLength then acc ++ [line]
      else
        let words := splitChar ' ' line
        let st := words.foldl (wrapLineStep maxLength) (acc, [])
        if st.2 ≠ [] then st.1 ++ [st.2] else st.1)
    []
  joinChar '\n' wrappedLines

/-- `ProcessTextOptions` from `textProcessor.ts`, with the defaults that
`processText` destructures (`stripHeaders: true`, `wrapLines: false`,
`maxLineLength: 80`, `decodeChars: false`). -/
structure ProcessTextOptions : Type where
  stripHeaders : Bool := true
  wrapLines : Bool := false
  maxLineLength : Nat := 80
  decodeChars : Bool := false
deriving DecidableEq, Repr

/-- `processText` from `textProcessor.ts`: the full pipeline — header
stripping, then character decoding, then optional wrapping. -/
def processText (rawText : Str) (options : ProcessTextOptions) : Str :=
  let processed := rawText
  let processed :=
    if options.stripHeaders then stripFormattingCodes processed else processed
  let processed :=
    if options.decodeChars then decodeSpecialCharacters processed else processed
  let processed :=
    if options.wrapLines then wrapLongLines processed options.maxLineLength
    else processed
  processed

-- ============================================================================
-- Elementary facts about split/join and trimming
-- ============================================================================

/-- `splitChar` never returns the empty list of components. -/
theorem splitChar_ne_nil (sep : Char) (s : Str) : splitChar sep s ≠ [] := by
  cases s with
  | nil => simp [splitChar]
  | cons c cs =>
    rw [splitChar]
    cases h : splitChar sep cs with
    | nil => simp
    | cons l ls => by_cases hc : c = sep <;> simp [hc]

/-- Joining the components of a split restores the original string. -/
theorem joinChar_splitChar (sep : Char) (s : Str) :
    joinChar sep (splitChar sep s) = s := by
  induction s with
  | nil => rfl
  | cons c cs ih =>
    rw [splitChar]
    cases h : splitChar sep cs with
    | nil => exact absurd h (splitChar_ne_nil sep cs)
    | cons l ls =>
      rw [h] at ih
      dsimp only
      by_cases hc : c = sep
      · rw [if_pos hc]
        show sep :: joinChar sep (l :: ls) = c :: cs
        rw [ih, hc]
      · rw [if_neg hc]
        cases ls with
        | nil =>
          show (c :: l : Str) = c :: cs
          have hl : (l : Str) = cs := ih
          rw [hl]
        | cons l2 ls2 =>
          show (c :: l) ++ sep :: joinChar sep (l2 :: ls2) = c :: cs
          rw [← ih]
          rfl

/-- Dropping a whole component keeps the join a subsequence. -/
theorem joinChar_sublist_cons (sep : Char) (l : Str) (ls : List Str) :
    List.Sublist (joinChar sep ls) (joinChar sep (l :: ls)) := by
  cases ls with
  | nil => exact List.nil_sublist _
  | cons l2 ls2 =>
    show List.Sublist (joinChar sep (l2 :: ls2)) (l ++ sep :: joinChar sep (l2 :: ls2))
    exact (List.sublist_cons_self sep _).trans (List.sublist_append_right l _)

/-- `joinChar` is monotone with respect to the subsequence order on the list
of components. -/
theorem joinChar_sublist (sep : Char) {ls' ls : List Str}
    (h : List.Sublist ls' ls) :
    List.Sublist (joinChar sep ls') (joinChar sep ls) := by
  induction h with
  | slnil => exact List.Sublist.refl _
  | cons l hsub ih => exact ih.trans (joinChar_sublist_cons sep l _)
  | @cons₂ ls' ls l hsub ih =>
    cases hls' : ls' with
    | nil =>
      cases ls with
      | nil => exact List.Sublist.refl _
      | cons l2 ls2 =>
        show List.Sublist (joinChar sep [l]) (l ++ sep :: joinChar sep (l2 :: ls2))
        exact List.sublist_append_left l _
    | cons a as =>
      cases ls with
      | nil =>
        subst hls'
        cases hsub
      | cons l2 ls2 =>
        subst hls'
        show List.Sublist (l ++ sep :: joinChar sep (a :: as))
          (l ++ sep :: joinChar sep (l2 :: ls2))
        exact ((ih.cons₂ sep).append_left l)

/-- Trimming yields a subsequence. -/
theorem jsTrim_sublist (s : Str) : List.Sublist (jsTrim s) s := by
  have h1 : List.Sublist (s.dropWhile isJsWhitespace) s := List.dropWhile_sublist _
  have h2 : List.Sublist
      ((s.dropWhile isJsWhitespace).reverse.dropWhile isJsWhitespace)
      (s.dropWhile isJsWhitespace).reverse := List.dropWhile_sublist _
  have h3 := h2.reverse
  rw [List.reverse_reverse] at h3
  exact h3.trans h1

/-- The header-skipping loop keeps a subsequence of the lines. -/
theorem stripLoop_sublist (b : Bool) (ls : List Str) :
    List.Sublist (stripLoop b ls) ls := by
  induction ls generalizing b with
  | nil => simp [stripLoop]
  | cons l rest ih =>
    rw [stripLoop]
    split
    · exact (ih b).cons l
    · dsimp only
      split <;> (try split) <;>
        first
          | exact (ih _).cons₂ l
          | exact (ih _).cons l

/-- The regex-replace scan only deletes characters. -/
theorem removeBacktickRuns_sublist (b : Bool) (s : Str) :
    List.Sublist (removeBacktickRuns b s) s := by
  induction s generalizing b with
  | nil => simp [removeBacktickRuns]
  | cons c cs ih =>
    simp only [removeBacktickRuns]
    split
    · exact (ih true).cons c
    · split
      · exact (ih true).cons c
      · exact (ih false).cons₂ c

-- ============================================================================
-- Claim C7: no tag balancing — the decoder only deletes
-- ============================================================================

/-- The options the document viewer passes to `processText`
(`Viewer.tsx`): strip headers, do not wrap, decode character codes. -/
def viewerOptions : ProcessTextOptions :=
  { stripHeaders := true, wrapLines := false, maxLineLength := 80, decodeChars := true }

/-- C7, counterexample: on an input containing the legacy bold-start code
(backtick-43, per the source's own comment "EasyScript used codes like `43
and `45 for bold/emphasis"), the renderer emits no opening tag at all and
there is nothing to force-close: the code is deleted outright and the output
contains no markup characters. -/
theorem processText_no_bold_tag :
    processText (str "Xy`43bold") { decodeChars := true } = str "Xybold" ∧
    decodeSpecialCharacters (str "Xy`43bold") = str "Xybold" ∧
    (processText (str "Xy`43bold") { decodeChars := true }).all
      (fun c => c ≠ '<') = true := by
  decide

/-- C7, amended: the text renderer has no inline-code lookup table, no tag
stack and no force-closing: `decodeSpecialCharacters` only deletes
backtick-number codes, so the output of the decoder — and of the full
viewer pipeline (headers stripped, decoding on, wrapping off) — is always a
subsequence of the input; in particular no tag is ever emitted. -/
theorem processText_emits_nothing (s : Str) :
    List.Sublist (decodeSpecialCharacters s) s ∧
    List.Sublist (processText s viewerOptions) s := by
  constructor
  · exact removeBacktickRuns_sublist false s
  · show List.Sublist (decodeSpecialCharacters (stripFormattingCodes s)) s
    refine (removeBacktickRuns_sublist false _).trans ?_
    show List.Sublist (stripFormattingCodes s) s
    refine (jsTrim_sublist _).trans ?_
    have h := joinChar_sublist '\n' (stripLoop_sublist false (splitChar '\n' s))
    rwa [joinChar_splitChar] at h

-- ============================================================================
-- Claim C8: the pipeline is the identity (up to trim) on plain text
-- ============================================================================

/-- Does the string contain a backtick immediately followed by a digit
(i.e. a match of the `/`\d+/` regex)? -/
def hasBacktickDigit : Str → Bool
  | [] => false
  | [_] => false
  | c :: d :: rest =>
    (decide (c = backtickChar) && isAsciiDigit d) || hasBacktickDigit (d :: rest)

/-- A string whose trim is empty consists of whitespace only. -/
theorem jsTrim_eq_nil_all_ws {l : Str} (h : jsTrim l = []) :
    ∀ c ∈ l, isJsWhitespace c = true := by
  have h1 : (l.dropWhile isJsWhitespace).reverse.dropWhile isJsWhitespace = [] := by
    have := congrArg List.reverse h
    rwa [jsTrim, List.reverse_reverse, List.reverse_nil] at this
  have h2 : ∀ c ∈ (l.dropWhile isJsWhitespace).reverse, isJsWhitespace c = true :=
    List.dropWhile_eq_nil_iff.mp h1
  intro c hc
  rw [← List.takeWhile_append_dropWhile (p := isJsWhitespace) (l := l)]
    at hc
  rcases List.mem_append.mp hc with hc | hc
  · exact List.mem_takeWhile_imp hc
  · exact h2 c (List.mem_reverse.mpr hc)

/-- Prepending whitespace does not change the trim. -/
theorem jsTrim_ws_append {p : Str} (hp : ∀ c ∈ p, isJsWhitespace c = true)
    (x : Str) : jsTrim (p ++ x) = jsTrim x := by
  have hdrop : (p ++ x).dropWhile isJsWhitespace = x.dropWhile isJsWhitespace := by
    induction p with
    | nil => rfl
    | cons c p ih =>
      rw [List.cons_append, List.dropWhile_cons,
        if_pos (hp c (List.mem_cons_self c p))]
      exact ih (fun d hd => hp d (List.mem_cons_of_mem c hd))
  rw [jsTrim, jsTrim, hdrop]

/-- Once content has been seen, the header-skipping loop keeps every line. -/
theorem stripLoop_true (ls : List Str) : stripLoop true ls = ls := by
  induction ls with
  | nil => rfl
  | cons l rest ih =>
    rw [stripLoop]
    simp [ih]

/-- With no directive lines present, the header-skipping loop drops exactly
the leading blank lines. -/
theorem stripLoop_false_no_directives (ls : List Str)
    (h : ∀ l ∈ ls, startsWithChar (jsTrim l) ';' = false ∧
        startsWithChar (jsTrim l) '*' = false) :
    stripLoop false ls = ls.dropWhile (fun l => (jsTrim l).isEmpty) := by
  induction ls with
  | nil => rfl
  | cons l rest ih =>
    have hl := h l (List.mem_cons_self l rest)
    have hrest : ∀ l' ∈ rest, startsWithChar (jsTrim l') ';' = false ∧
        startsWithChar (jsTrim l') '*' = false :=
      fun l' hl' => h l' (List.mem_cons_of_mem l hl')
    rw [stripLoop, List.dropWhile_cons]
    simp only [hl.1, hl.2, Bool.not_false, Bool.or_self, Bool.and_false,
      Bool.false_and, Bool.not_true, Bool.and_true, Bool.true_and,
      Bool.false_or, if_false]
    by_cases hblank : jsTrim l = []
    · have : (jsTrim l).isEmpty = true := by simp [hblank]
      simp only [hblank, this, if_pos, List.length_nil]
      simp [ih hrest]
    · have hlen : 0 < (jsTrim l).length := List.length_pos.mpr hblank
      have : (jsTrim l).isEmpty = false := by
        simp [List.isEmpty_iff, hblank]
      simp only [this, if_neg, hlen]
      simp [hlen, stripLoop_true]

/-- Dropping leading blank lines does not change the trimmed join. -/
theorem jsTrim_joinChar_dropWhile_blank (ls : List Str) :
    jsTrim (joinChar '\n' (ls.dropWhile (fun l => (jsTrim l).isEmpty))) =
      jsTrim (joinChar '\n' ls) := by
  induction ls with
  | nil => rfl
  | cons l rest ih =>
    rw [List.dropWhile_cons]
    by_cases hblank : jsTrim l = []
    · have hie : ((jsTrim l).isEmpty = true) := by simp [hblank]
      rw [if_pos hie, ih]
      cases rest with
      | nil =>
        show jsTrim [] = jsTrim l
        rw [hblank]
        rfl
      | cons l2 rest2 =>
        show jsTrim (joinChar '\n' (l2 :: rest2)) =
          jsTrim (l ++ '\n' :: joinChar '\n' (l2 :: rest2))
        have hws : ∀ c ∈ l ++ ['\n'], isJsWhitespace c = true := by
          intro c hc
          rcases List.mem_append.mp hc with hc | hc
          · exact jsTrim_eq_nil_all_ws hblank c hc
          · rcases List.mem_singleton.mp hc with rfl
            decide
        have := jsTrim_ws_append hws (joinChar '\n' (l2 :: rest2))
        rw [List.append_assoc] at this
        simp only [List.singleton_append] at this
        rw [this]
    · have hie : ¬ ((jsTrim l).isEmpty = true) := by simp [List.isEmpty_iff, hblank]
      rw [if_neg hie]

/-- With no directive lines, `stripFormattingCodes` is exactly
`String.prototype.trim`. -/
theorem stripFormattingCodes_no_directives (s : Str)
    (h : ∀ line ∈ splitChar '\n' s, startsWithChar (jsTrim line) ';' = false ∧
        startsWithChar (jsTrim line) '*' = false) :
    stripFormattingCodes s = jsTrim s := by
  rw [stripFormattingCodes, stripLoop_false_no_directives _ h,
    jsTrim_joinChar_dropWhile_blank, joinChar_splitChar]

/-- Dropping the head preserves the absence of backtick-digit pairs. -/
theorem hasBacktickDigit_tail {c : Char} {cs : Str}
    (h : hasBacktickDigit (c :: cs) = false) : hasBacktickDigit cs = false := by
  cases cs with
  | nil => rfl
  | cons d rest =>
    rw [hasBacktickDigit] at h
    exact (Bool.or_eq_false_iff.mp h).2

/-- A prefix of a string without backtick-digit pairs has none either. -/
theorem hasBacktickDigit_of_IsPre : ∀ (p s : Str), p.IsPrefix s →
    hasBacktickDigit s = false → hasBacktickDigit p = false
  | [], _, _, _ => rfl
  | [_], _, _, _ => rfl
  | a :: b :: p', s, hp, hs => by
    rcases hp with ⟨t, rfl⟩
    rw [hasBacktickDigit]
    rw [List.cons_append, List.cons_append, hasBacktickDigit] at hs
    rcases Bool.or_eq_false_iff.mp hs with ⟨h1, h2⟩
    rw [h1, Bool.false_or]
    rw [← List.cons_append] at h2
    exact hasBacktickDigit_of_IsPre (b :: p') (b :: p' ++ t) ⟨t, rfl⟩ h2

/-- A suffix of a string without backtick-digit pairs has none either. -/
theorem hasBacktickDigit_of_IsSuf (t s : Str) (hp : t.IsSuffix s)
    (hs : hasBacktickDigit s = false) : hasBacktickDigit t = false := by
  rcases hp with ⟨u, rfl⟩
  induction u with
  | nil => exact hs
  | cons c u ih =>
    rw [List.cons_append] at hs
    exact ih (hasBacktickDigit_tail hs)

/-- Trimming preserves the absence of backtick-digit pairs. -/
theorem hasBacktickDigit_jsTrim {s : Str} (h : hasBacktickDigit s = false) :
    hasBacktickDigit (jsTrim s) = false := by
  have hsuf : (s.dropWhile isJsWhitespace).IsSuffix s :=
    List.dropWhile_suffix _
  have ha : hasBacktickDigit (s.dropWhile isJsWhitespace) = false :=
    hasBacktickDigit_of_IsSuf _ s hsuf h
  set a := s.dropWhile isJsWhitespace with hadef
  have hsuf2 : (a.reverse.dropWhile isJsWhitespace).IsSuffix a.reverse :=
    List.dropWhile_suffix _
  have hpre : (jsTrim s).IsPrefix a := by
    rw [← List.reverse_suffix]
    show ((a.reverse.dropWhile isJsWhitespace).reverse).reverse.IsSuffix a.reverse
    rwa [List.reverse_reverse]
  exact hasBacktickDigit_of_IsPre _ _ hpre ha

/-- Without backtick-digit pairs, the regex replace is the identity. -/
theorem removeBacktickRuns_id : ∀ (s : Str), hasBacktickDigit s = false →
    removeBacktickRuns false s = s
  | [], _ => rfl
  | c :: cs, h => by
    simp only [removeBacktickRuns, Bool.false_and, Bool.false_eq_true,
      if_false]
    cases cs with
    | nil => simp [removeBacktickRuns]
    | cons d rest =>
      rw [hasBacktickDigit] at h
      rcases Bool.or_eq_false_iff.mp h with ⟨h1, h2⟩
      rw [if_neg (by simp only [h1]; exact Bool.false_ne_true)]
      rw [removeBacktickRuns_id (d :: rest) h2]

/-- C8: on input with no backtick-number codes and no directive lines
(no line whose trim starts with `;` or `*`), the full pipeline (headers
stripped, wrapping off, decoding on or off) returns the input trimmed and
otherwise unchanged. -/
theorem processText_plain_identity (s : Str) (opts : ProcessTextOptions)
    (hstrip : opts.stripHeaders = true) (hwrap : opts.wrapLines = false)
    (h1 : ∀ line ∈ splitChar '\n' s,
        startsWithChar (jsTrim line) ';' = false ∧
        startsWithChar (jsTrim line) '*' = false)
    (h2 : hasBacktickDigit s = false) :
    processText s opts = jsTrim s := by
  rw [processText]
  simp only [hstrip, hwrap, if_true, if_false]
  rw [stripFormattingCodes_no_directives s h1]
  cases hd : opts.decodeChars with
  | false => simp
  | true =>
    simp only [if_true]
    show decodeSpecialCharacters (jsTrim s) = jsTrim s
    exact removeBacktickRuns_id _ (hasBacktickDigit_jsTrim h2)

/-- Witness for `processText_plain_identity` on a concrete plain string. -/
theorem processText_plain_identity_witness :
    processText (str "  \nHello there\n\nGoodbye  ") viewerOptions =
      jsTrim (str "  \nHello there\n\nGoodbye  ") :=
  processText_plain_identity (str "  \nHello there\n\nGoodbye  ")
    viewerOptions rfl rfl (by decide) (by decide)

-- ============================================================================
-- Folder tree (manifestUtils.ts, buildFolderTreeFromDocuments)
-- ============================================================================

/-- `path.split('/')`: the segments of a folder path. -/
def segs (p : Str) : List Str := splitChar '/' p

/-- `parts.slice(0, -1).join('/')`: the parent path of a folder path. -/
def parentPath (p : Str) : Str := joinChar '/' ((segs p).dropLast)

/-- `parts[parts.length - 1]`: the final segment of a folder path (the node
name). -/
def lastSeg (p : Str) : Str := (segs p).getLastD []

/-- The `documents.forEach` counting pass of `buildFolderTreeFromDocuments`:
a `Map` from folder path to the number of documents directly in it, in
first-occurrence order. -/
def folderCountsOf (documents : List FlatDocument) : List (Str × Nat) :=
  documents.foldl (fun m doc => bumpCount m doc.folderPath) []

/-- `nodeMap.has(p)` on the association-list model. -/
def hasKey (ks : List (Str × Nat)) (p : Str) : Bool :=
  ks.any (fun kv => decide (kv.1 = p))

/-- Look up the stored count of a key. -/
def lookupKey (ks : List (Str × Nat)) (p : Str) : Option Nat :=
  (ks.find? (fun kv => decide (kv.1 = p))).map (fun kv => kv.2)

/-- The `for (let i = 1; i < parts.length; i++)` loop of
`buildFolderTreeFromDocuments`: create the missing ancestor entries of a
folder path, shortest first, with document count 0. -/
def addAncestors (parts : List Str) (ks : List (Str × Nat)) :
    List (Str × Nat) :=
  (List.range' 1 (parts.length - 1)).foldl
    (fun acc i =>
      if hasKey acc (joinChar '/' (parts.take i)) then acc
      else acc ++ [(joinChar '/' (parts.take i), 0)])
    ks

/-- One `folderCounts.forEach` iteration of `buildFolderTreeFromDocuments`,
reduced to its key/count content: the folder path is entered with its
direct-document count unless it is already present (in which case the
present entry — possibly a synthetic 0 — wins), then its missing ancestors
are entered with count 0. -/
def stepEntry (ks : List (Str × Nat)) (fc : Str × Nat) : List (Str × Nat) :=
  addAncestors (segs fc.1) (if hasKey ks fc.1 then ks else ks ++ [fc])

/-- The node map of `buildFolderTreeFromDocuments` as an insertion-ordered
key/count list; the tree itself is recovered from these keys by `buildNode`
below. -/
def buildKeys (documents : List FlatDocument) : List (Str × Nat) :=
  (folderCountsOf documents).foldl stepEntry []

/-- `FolderTreeNode` from `types/archive.ts`. -/
inductive FolderTreeNode : Type where
  | mk : Str → Str → List FolderTreeNode → Nat → Bool → FolderTreeNode
deriving Repr

/-- The `name` member of a `FolderTreeNode`. -/
def FolderTreeNode.name : FolderTreeNode → Str
  | FolderTreeNode.mk n _ _ _ _ => n

/-- The `path` member of a `FolderTreeNode`. -/
def FolderTreeNode.path : FolderTreeNode → Str
  | FolderTreeNode.mk _ p _ _ _ => p

/-- The `children` member of a `FolderTreeNode`. -/
def FolderTreeNode.children : FolderTreeNode → List FolderTreeNode
  | FolderTreeNode.mk _ _ cs _ _ => cs

/-- The `documentCount` member of a `FolderTreeNode`. -/
def FolderTreeNode.documentCount : FolderTreeNode → Nat
  | FolderTreeNode.mk _ _ _ c _ => c

/-- Code-point-wise `≤` on strings.  This models the `a.localeCompare(b)`
comparator of the tree sort: `localeCompare` orders by the host locale's
collation (implementation-defined); on the ASCII digit/lowercase folder
names of this archive the common English collations agree with plain
code-point order, and — the point of the claim — like every collation it
compares digit sequences character by character, not numerically. -/
def lexLe (a b : Str) : Bool := !(strLt b a)

/-- The keys of the child entries of a node: entries whose path has more
than one segment and whose parent path is the node's path (second pass of
`buildFolderTreeFromDocuments`). -/
def childKeys (ks : List (Str × Nat)) (p : Str) : List (Str × Nat) :=
  ks.filter (fun kv =>
    decide (1 < (segs kv.1).length) && decide (parentPath kv.1 = p))

/-- The root entries: keys whose path contains no `/`
(`!path.includes('/')`). -/
def rootKeys (ks : List (Str × Nat)) : List (Str × Nat) :=
  ks.filter (fun kv => !(kv.1.contains '/'))

/-- An upper bound on the segment count of any key (used as recursion
fuel: the tree is as deep as its deepest folder path). -/
def maxSegs (ks : List (Str × Nat)) : Nat :=
  ks.foldl (fun m kv => max m (segs kv.1).length) 0

/-- The `sortTree` sort: `.sort((a, b) => a.name.localeCompare(b.name))`,
stable per ES2019, modelled by the stable `insertionSort` over the
`localeCompare` model. -/
def sortNodes (nodes : List FolderTreeNode) : List FolderTreeNode :=
  nodes.insertionSort (fun a b => lexLe a.name b.name = true)

/-- Build the tree node of one key: name is the last path segment, children
are the recursively built child entries, sorted by name.  (The source
builds the links in a mutable second pass and sorts in a final `sortTree`
pass; sorting every children list as it is built yields the same tree,
since the comparator reads only the immutable `name`.)  The fuel only bounds
the recursion depth; `buildFolderTreeFromDocuments` passes the maximal key
depth, which the recursion never exhausts. -/
def buildNode (ks : List (Str × Nat)) : Nat → Str × Nat → FolderTreeNode
  | 0, kv => FolderTreeNode.mk (lastSeg kv.1) kv.1 [] kv.2 false
  | fuel + 1, kv =>
    FolderTreeNode.mk (lastSeg kv.1) kv.1
      (sortNodes ((childKeys ks kv.1).map (buildNode ks fuel))) kv.2 false

/-- `buildFolderTreeFromDocuments` from `manifestUtils.ts`: count documents
per folder, enter every folder path and all its ancestors into the node
map, link children to parents, and return the sorted roots. -/
def buildFolderTreeFromDocuments (documents : List FlatDocument) :
    List FolderTreeNode :=
  let ks := buildKeys documents
  sortNodes ((rootKeys ks).map (buildNode ks (maxSegs ks)))

/-- Navigate a folder forest along a list of path segments (an observer
used to state properties of the returned tree): at each level, find the
node carrying the segment as its name. -/
def findNode : List FolderTreeNode → List Str → Option FolderTreeNode
  | _, [] => none
  | nodes, [s] => nodes.find? (fun n => decide (n.name = s))
  | nodes, s :: rest =>
    match nodes.find? (fun n => decide (n.name = s)) with
    | some n => findNode n.children rest
    | none => none

-- ============================================================================
-- Claims C4 and C5: counterexamples
-- ============================================================================

/-- A document directly in the nested folder `a/b`. -/
def nestedDoc : FlatDocument := mkDoc "x.txt" "a/b/x.txt" "a/b" "s" [] "letter"

/-- A document directly in the folder `a`. -/
def shallowDoc : FlatDocument := mkDoc "y.txt" "a/y.txt" "a" "s" [] "letter"

/-- C4, counterexample: with a document in `a/b` listed before a document
directly in `a`, the node at `a` — first created as a synthetic ancestor —
keeps documentCount 0 even though exactly one document's folder path equals
`a`; the claim's count rule fails. -/
theorem buildFolderTree_count_not_exact :
    ((findNode (buildFolderTreeFromDocuments [nestedDoc, shallowDoc])
        [str "a"]).map (fun n => n.documentCount)) = some 0 ∧
    ([nestedDoc, shallowDoc].countP
      (fun d' => decide (d'.folderPath = str "a"))) = 1 := by
  decide

/-- A document in a folder named `9`. -/
def folder9Doc : FlatDocument := mkDoc "y.txt" "9/y.txt" "9" "s" [] "letter"

/-- A document in a folder named `10`. -/
def folder10Doc : FlatDocument := mkDoc "x.txt" "10/x.txt" "10" "s" [] "letter"

/-- C5, counterexample: the top-level nodes for folders `9` and `10` come
back in the order `10`, `9`: `localeCompare` without the `numeric` option
compares the digit characters one by one (`"1" < "9"`), so a folder named
`"9"` sorts after one named `"10"`, contradicting the claimed
numeric-aware order. -/
theorem buildFolderTree_sort_not_numeric :
    (buildFolderTreeFromDocuments [folder9Doc, folder10Doc]).map
      (fun n => n.name) = [str "10", str "9"] := by
  decide

-- ============================================================================
-- The code-point order: asymmetry and negative transitivity
-- ============================================================================

/-- `strLt` is asymmetric. -/
theorem strLt_asymm : ∀ (a b : Str), strLt a b = true → strLt b a = false := by
  intro a
  induction a with
  | nil =>
    intro b h
    cases b with
    | nil => simp [strLt] at h
    | cons y ys => rfl
  | cons x xs ih =>
    intro b h
    cases b with
    | nil => simp [strLt] at h
    | cons y ys =>
      simp only [strLt] at h ⊢
      by_cases h1 : x.toNat < y.toNat
      · rw [if_neg (by omega), if_pos h1]
      · by_cases h2 : y.toNat < x.toNat
        · rw [if_neg h1, if_pos h2] at h
          exact absurd h (by simp)
        · rw [if_neg h1, if_neg h2] at h
          rw [if_neg h2, if_neg h1]
          exact ih ys h

/-- `strLt` is negatively transitive. -/
theorem strLt_neg_trans : ∀ (a b c : Str), strLt a b = false →
    strLt b c = false → strLt a c = false := by
  intro a
  induction a with
  | nil =>
    intro b c h1 h2
    cases c with
    | nil => rfl
    | cons z zs =>
      cases b with
      | nil => simp [strLt] at h2
      | cons y ys => simp [strLt] at h1
  | cons x xs ih =>
    intro b c h1 h2
    cases c with
    | nil => rfl
    | cons z zs =>
      cases b with
      | nil => simp [strLt] at h2
      | cons y ys =>
        simp only [strLt] at h1 h2 ⊢
        by_cases hxy : x.toNat < y.toNat
        · rw [if_pos hxy] at h1
          exact absurd h1 (by simp)
        · by_cases hyz : y.toNat < z.toNat
          · rw [if_pos hyz] at h2
            exact absurd h2 (by simp)
          · have hxz : ¬ x.toNat < z.toNat := by omega
            rw [if_neg hxz]
            by_cases hzx : z.toNat < x.toNat
            · rw [if_pos hzx]
            · rw [if_neg hzx]
              have hyx : ¬ y.toNat < x.toNat := by omega
              have hzy : ¬ z.toNat < y.toNat := by omega
              rw [if_neg hxy, if_neg hyx] at h1
              rw [if_neg hyz, if_neg hzy] at h2
              exact ih ys zs h1 h2

/-- `lexLe` is total. -/
theorem lexLe_total (a b : Str) : lexLe a b = true ∨ lexLe b a = true := by
  rw [lexLe, lexLe]
  cases h : strLt b a with
  | false => exact Or.inl rfl
  | true => exact Or.inr (by rw [strLt_asymm b a h]; rfl)

/-- `lexLe` is transitive. -/
theorem lexLe_trans {a b c : Str} (h1 : lexLe a b = true)
    (h2 : lexLe b c = true) : lexLe a c = true := by
  rw [lexLe] at h1 h2 ⊢
  rw [Bool.not_eq_true'] at h1 h2 ⊢
  exact strLt_neg_trans c b a h2 h1

/-- `sortNodes` sorts by name with respect to the `localeCompare` model. -/
theorem sortNodes_sorted (nodes : List FolderTreeNode) :
    (sortNodes nodes).Pairwise (fun a b => lexLe a.name b.name = true) := by
  haveI : IsTotal FolderTreeNode (fun a b => lexLe a.name b.name = true) :=
    ⟨fun a b => lexLe_total a.name b.name⟩
  haveI : IsTrans FolderTreeNode (fun a b => lexLe a.name b.name = true) :=
    ⟨fun _ _ _ h1 h2 => lexLe_trans h1 h2⟩
  exact List.sorted_insertionSort _ nodes

/-- Every node reached by `findNode` in a forest of built nodes is itself a
built node. -/
theorem findNode_built (ks : List (Str × Nat)) :
    ∀ (ss : List Str) (ns : List FolderTreeNode) (n : FolderTreeNode),
      (∀ m ∈ ns, ∃ fuel kv, m = buildNode ks fuel kv) →
      findNode ns ss = some n → ∃ fuel kv, n = buildNode ks fuel kv := by
  intro ss
  induction ss with
  | nil => intro ns n _ h; simp [findNode] at h
  | cons s rest ih =>
    intro ns n hns h
    cases rest with
    | nil =>
      rw [findNode] at h
      exact hns n (List.mem_of_find?_eq_some h)
    | cons r rs =>
      rw [findNode.eq_3 ns s (r :: rs) (by simp)] at h
      cases hf : ns.find? (fun m => decide (m.name = s)) with
      | none => rw [hf] at h; exact absurd h (by simp)
      | some m =>
        rw [hf] at h
        rcases hns m (List.mem_of_find?_eq_some hf) with ⟨fuel, kv, rfl⟩
        cases fuel with
        | zero =>
          rw [buildNode] at h
          simp only [FolderTreeNode.children] at h
          cases rs <;> simp [findNode] at h
        | succ fl =>
          rw [buildNode] at h
          simp only [FolderTreeNode.children] at h
          refine ih _ n ?_ h
          intro m2 hm2
          rw [sortNodes, List.mem_insertionSort] at hm2
          rcases List.mem_map.mp hm2 with ⟨kv2, _, rfl⟩
          exact ⟨fl, kv2, rfl⟩

/-- C5, amended: every level of the returned folder tree — the top-level
list and every node's children list — is sorted by name under the
`localeCompare` order (locale collation without numeric handling, modelled
by code-point comparison; a folder named `"10"` sorts before one named
`"9"`). -/
theorem buildFolderTree_sorted (docs : List FlatDocument) :
    (buildFolderTreeFromDocuments docs).Pairwise
      (fun a b => lexLe a.name b.name = true) ∧
    ∀ (ss : List Str) (n : FolderTreeNode),
      findNode (buildFolderTreeFromDocuments docs) ss = some n →
      n.children.Pairwise (fun a b => lexLe a.name b.name = true) := by
  constructor
  · exact sortNodes_sorted _
  · intro ss n h
    have hroot : ∀ m ∈ buildFolderTreeFromDocuments docs,
        ∃ fuel kv, m = buildNode (buildKeys docs) fuel kv := by
      intro m hm
      rw [buildFolderTreeFromDocuments] at hm
      rw [sortNodes, List.mem_insertionSort] at hm
      rcases List.mem_map.mp hm with ⟨kv, _, rfl⟩
      exact ⟨maxSegs (buildKeys docs), kv, rfl⟩
    rcases findNode_built (buildKeys docs) ss _ n hroot h with ⟨fuel, kv, rfl⟩
    cases fuel with
    | zero => exact List.Pairwise.nil
    | succ fl => exact sortNodes_sorted _

/-- Witness for `buildFolderTree_sorted` at a concrete collection. -/
theorem buildFolderTree_sorted_witness :
    (buildFolderTreeFromDocuments [folder9Doc, folder10Doc]).Pairwise
      (fun a b => lexLe a.name b.name = true) :=
  (buildFolderTree_sorted [folder9Doc, folder10Doc]).1

-- ============================================================================
-- Segment and association-list toolbox for the folder tree
-- ============================================================================

/-- Components of a split never contain the separator. -/
theorem splitChar_not_mem (sep : Char) (s : Str) :
    ∀ l ∈ splitChar sep s, sep ∉ l := by
  induction s with
  | nil =>
    intro l hl
    rw [splitChar, List.mem_singleton] at hl
    subst hl
    exact List.not_mem_nil sep
  | cons c cs ih =>
    intro l hl
    rw [splitChar] at hl
    cases hsp : splitChar sep cs with
    | nil => exact absurd hsp (splitChar_ne_nil sep cs)
    | cons l0 ls0 =>
      rw [hsp] at hl
      rw [hsp] at ih
      dsimp only at hl
      by_cases hc : c = sep
      · rw [if_pos hc] at hl
        rcases List.mem_cons.mp hl with rfl | hl
        · exact List.not_mem_nil sep
        · exact ih l hl
      · rw [if_neg hc] at hl
        rcases List.mem_cons.mp hl with rfl | hl
        · intro hmem
          rcases List.mem_cons.mp hmem with rfl | hmem
          · exact hc rfl
          · exact ih l0 (List.mem_cons_self l0 ls0) hmem
        · exact ih l (List.mem_cons_of_mem l0 hl)

/-- Splitting a separator-free string yields a single component. -/
theorem splitChar_no_sep {sep : Char} : ∀ {l : Str}, sep ∉ l →
    splitChar sep l = [l]
  | [], _ => rfl
  | c :: l, h => by
    rw [splitChar, splitChar_no_sep (fun hm => h (List.mem_cons_of_mem c hm))]
    dsimp only
    rw [if_neg (fun hc : c = sep => h (hc ▸ List.mem_cons_self c l))]

/-- Splitting at the first separator after a separator-free block. -/
theorem splitChar_block {sep : Char} : ∀ {l : Str}, sep ∉ l → ∀ (t : Str),
    splitChar sep (l ++ sep :: t) = l :: splitChar sep t
  | [], _, t => by
    rw [List.nil_append, splitChar]
    cases hsp : splitChar sep t with
    | nil => exact absurd hsp (splitChar_ne_nil sep t)
    | cons l0 ls0 =>
      dsimp only
      rw [if_pos rfl]
  | c :: l, h, t => by
    rw [List.cons_append, splitChar,
      splitChar_block (fun hm => h (List.mem_cons_of_mem c hm)) t]
    dsimp only
    rw [if_neg (fun hc : c = sep => h (hc ▸ List.mem_cons_self c l))]

/-- Splitting a separator-joined list of separator-free components restores
the components. -/
theorem splitChar_joinChar (sep : Char) : ∀ (ls : List Str), ls ≠ [] →
    (∀ l ∈ ls, sep ∉ l) → splitChar sep (joinChar sep ls) = ls
  | [], h, _ => absurd rfl h
  | [l], _, hsf => splitChar_no_sep (hsf l (List.mem_singleton_self l))
  | l :: l2 :: ls, _, hsf => by
    show splitChar sep (l ++ sep :: joinChar sep (l2 :: ls)) = l :: l2 :: ls
    rw [splitChar_block (hsf l (List.mem_cons_self _ _)),
      splitChar_joinChar sep (l2 :: ls) (by simp)
        (fun x hx => hsf x (List.mem_cons_of_mem l hx))]

/-- `segs` of a path is never empty. -/
theorem segs_ne_nil (p : Str) : segs p ≠ [] := splitChar_ne_nil '/' p

/-- Joining the segments of a path restores the path. -/
theorem joinPath_segs (p : Str) : joinChar '/' (segs p) = p :=
  joinChar_splitChar '/' p

/-- The segments of a join of slash-free components are those components. -/
theorem segs_joinPath {xs : List Str} (h0 : xs ≠ [])
    (h : ∀ l ∈ xs, '/' ∉ l) : segs (joinChar '/' xs) = xs :=
  splitChar_joinChar '/' xs h0 h

/-- A path splits into one segment exactly when it is slash-free. -/
theorem segs_length_one {p : Str} (h : '/' ∉ p) : segs p = [p] :=
  splitChar_no_sep h

/-- Missing keys have no lookup value. -/
theorem lookupKey_eq_none {ks : List (Str × Nat)} {p : Str}
    (h : hasKey ks p = false) : lookupKey ks p = none := by
  rw [lookupKey, List.find?_eq_none.mpr, Option.map_none']
  intro kv hkv hp
  rw [hasKey] at h
  have := List.any_eq_false.mp h kv hkv
  exact this hp

/-- Present keys have a lookup value. -/
theorem lookupKey_isSome {ks : List (Str × Nat)} {p : Str}
    (h : hasKey ks p = true) : ∃ v, lookupKey ks p = some v := by
  rw [hasKey, List.any_eq_true] at h
  have hs : (ks.find? (fun kv => decide (kv.1 = p))).isSome := by
    rw [List.find?_isSome]
    exact h
  rcases Option.isSome_iff_exists.mp hs with ⟨kv, hkv⟩
  exact ⟨kv.2, by rw [lookupKey, hkv, Option.map_some']⟩

/-- Appending entries keeps the value of a present key. -/
theorem lookupKey_append_left {ks : List (Str × Nat)} {p : Str} {v : Nat}
    (h : lookupKey ks p = some v) (ks' : List (Str × Nat)) :
    lookupKey (ks ++ ks') p = some v := by
  rw [lookupKey] at h ⊢
  rw [List.find?_append]
  cases hf : ks.find? (fun kv => decide (kv.1 = p)) with
  | none => rw [hf] at h; simp at h
  | some kv =>
    rw [hf] at h
    exact h

/-- Looking up a key appended to a list that lacks it. -/
theorem lookupKey_append_fresh {ks : List (Str × Nat)} {p : Str}
    (h : hasKey ks p = false) (kv : Str × Nat) :
    lookupKey (ks ++ [kv]) p = if kv.1 = p then some kv.2 else none := by
  have hnone : ks.find? (fun kv => decide (kv.1 = p)) = none := by
    rw [List.find?_eq_none]
    intro x hx hp
    exact (List.any_eq_false.mp h x hx) hp
  rw [lookupKey, List.find?_append, hnone, Option.none_or]
  by_cases hkv : kv.1 = p
  · rw [if_pos hkv, List.find?_cons_of_pos _ (by simpa using hkv),
      Option.map_some']
  · rw [if_neg hkv, List.find?_cons_of_neg _ (by simpa using hkv)]
    rfl

/-- `hasKey` distributes over append. -/
theorem hasKey_append (ks ks' : List (Str × Nat)) (p : Str) :
    hasKey (ks ++ ks') p = (hasKey ks p || hasKey ks' p) := by
  rw [hasKey, hasKey, hasKey, List.any_append]

/-- A key is absent exactly when it is not among the stored keys. -/
theorem hasKey_eq_false_iff {ks : List (Str × Nat)} {p : Str} :
    hasKey ks p = false ↔ p ∉ ks.map Prod.fst := by
  rw [hasKey, List.any_eq_false]
  constructor
  · intro h hp
    rcases List.mem_map.mp hp with ⟨kv, hkv, hfst⟩
    exact h kv hkv (by simp [hfst])
  · intro h kv hkv hp
    exact h (List.mem_map.mpr ⟨kv, hkv, of_decide_eq_true hp⟩)

/-- A present key has a member entry. -/
theorem hasKey_exists_mem {ks : List (Str × Nat)} {p : Str}
    (h : hasKey ks p = true) : ∃ kv ∈ ks, kv.1 = p := by
  rw [hasKey, List.any_eq_true] at h
  rcases h with ⟨kv, hkv, hp⟩
  exact ⟨kv, hkv, of_decide_eq_true hp⟩

/-- `find?` returns the unique element satisfying the predicate. -/
theorem find?_unique {α : Type} {p : α → Bool} : ∀ {l : List α} {x : α},
    x ∈ l → p x = true → (∀ y ∈ l, p y = true → y = x) → l.find? p = some x
  | [], x, hx, _, _ => absurd hx (List.not_mem_nil x)
  | a :: l, x, hx, hpx, hu => by
    by_cases hpa : p a = true
    · rw [List.find?_cons_of_pos _ hpa, hu a (List.mem_cons_self a l) hpa]
    · rcases List.mem_cons.mp hx with rfl | hx
      · exact absurd hpx hpa
      · rw [List.find?_cons_of_neg _ (by simpa using hpa)]
        exact find?_unique hx hpx
          (fun y hy hpy => hu y (List.mem_cons_of_mem a hy) hpy)

/-- With distinct keys, entries are determined by their key. -/
theorem mem_nodup_key_eq {ks : List (Str × Nat)}
    (hnd : (ks.map Prod.fst).Nodup) {kv kv' : Str × Nat}
    (h1 : kv ∈ ks) (h2 : kv' ∈ ks) (h : kv.1 = kv'.1) : kv = kv' := by
  have := List.inj_on_of_nodup_map hnd h1 h2 h
  exact this

/-- Lookup of an entry with a present, unique key. -/
theorem lookupKey_of_mem_nodup {ks : List (Str × Nat)}
    (hnd : (ks.map Prod.fst).Nodup) {kv : Str × Nat} (h : kv ∈ ks) :
    lookupKey ks kv.1 = some kv.2 := by
  have hu : ∀ y ∈ ks, (decide (y.1 = kv.1)) = true → y = kv :=
    fun y hy hpy => mem_nodup_key_eq hnd hy h (of_decide_eq_true hpy)
  rw [lookupKey, find?_unique h (by simp) hu, Option.map_some']

-- ============================================================================
-- The ancestor-creation loop
-- ============================================================================

/-- The ancestor loop preserves the value of a present key. -/
theorem ancLoop_lookup_mono (f : Nat → Str) : ∀ (L : List Nat)
    (acc : List (Str × Nat)) {q : Str} {v : Nat}, lookupKey acc q = some v →
    lookupKey (L.foldl (fun acc i =>
      if hasKey acc (f i) then acc else acc ++ [(f i, 0)]) acc) q = some v
  | [], _, _, _, h => h
  | i :: L, acc, q, v, h => by
    rw [List.foldl_cons]
    apply ancLoop_lookup_mono f L
    by_cases hk : hasKey acc (f i) = true
    · rw [if_pos hk]
      exact h
    · rw [if_neg hk]
      exact lookupKey_append_left h _

/-- The ancestor loop adds no key outside the ancestor set. -/
theorem ancLoop_fresh (f : Nat → Str) : ∀ (L : List Nat)
    (acc : List (Str × Nat)) {q : Str}, hasKey acc q = false →
    (∀ i ∈ L, f i ≠ q) →
    hasKey (L.foldl (fun acc i =>
      if hasKey acc (f i) then acc else acc ++ [(f i, 0)]) acc) q = false
  | [], _, _, h, _ => h
  | i :: L, acc, q, h, hne => by
    rw [List.foldl_cons]
    have hrest : ∀ j ∈ L, f j ≠ q :=
      fun j hj => hne j (List.mem_cons_of_mem i hj)
    by_cases hk : hasKey acc (f i) = true
    · rw [if_pos hk]
      exact ancLoop_fresh f L acc h hrest
    · rw [if_neg hk]
      apply ancLoop_fresh f L _ _ hrest
      rw [hasKey_append, h, Bool.false_or, hasKey]
      simp only [List.any_cons, List.any_nil, Bool.or_false]
      exact decide_eq_false (hne i (List.mem_cons_self i L))

/-- The ancestor loop enters every listed ancestor that is still absent,
with count 0. -/
theorem ancLoop_adds (f : Nat → Str) : ∀ (L : List Nat)
    (acc : List (Str × Nat)) {q : Str}, hasKey acc q = false →
    ∀ j ∈ L, f j = q →
    lookupKey (L.foldl (fun acc i =>
      if hasKey acc (f i) then acc else acc ++ [(f i, 0)]) acc) q = some 0
  | [], _, _, _, j, hj, _ => absurd hj (List.not_mem_nil j)
  | i :: L, acc, q, h, j, hj, hfj => by
    rw [List.foldl_cons]
    by_cases hfi : f i = q
    · rw [if_neg (by rw [hfi]; simp [h])]
      apply ancLoop_lookup_mono f L
      rw [lookupKey_append_fresh h, if_pos hfi]
    · rcases List.mem_cons.mp hj with rfl | hj
      · exact absurd hfj hfi
      · by_cases hk : hasKey acc (f i) = true
        · rw [if_pos hk]
          exact ancLoop_adds f L acc h j hj hfj
        · rw [if_neg hk]
          refine ancLoop_adds f L _ ?_ j hj hfj
          rw [hasKey_append, h, Bool.false_or, hasKey]
          simp only [List.any_cons, List.any_nil, Bool.or_false]
          exact decide_eq_false hfi

/-- `addAncestors` preserves the value of a present key. -/
theorem addAncestors_lookup_mono {parts : List Str} {ks : List (Str × Nat)}
    {q : Str} {v : Nat} (h : lookupKey ks q = some v) :
    lookupKey (addAncestors parts ks) q = some v := by
  unfold addAncestors
  exact ancLoop_lookup_mono (fun i => joinChar '/' (parts.take i)) _ ks h

/-- `addAncestors` adds only proper ancestors of the given parts. -/
theorem addAncestors_fresh {parts : List Str} {ks : List (Str × Nat)}
    {q : Str} (h : hasKey ks q = false)
    (hne : ∀ i, 1 ≤ i → i < parts.length → joinChar '/' (parts.take i) ≠ q) :
    hasKey (addAncestors parts ks) q = false := by
  unfold addAncestors
  apply ancLoop_fresh (fun i => joinChar '/' (parts.take i)) _ ks h
  intro i hi
  rw [List.mem_range'_1] at hi
  exact hne i hi.1 (by omega)

/-- `addAncestors` enters an absent proper ancestor with count 0. -/
theorem addAncestors_adds {parts : List Str} {ks : List (Str × Nat)}
    {q : Str} (h : hasKey ks q = false) {j : Nat} (hj1 : 1 ≤ j)
    (hj2 : j < parts.length) (hfj : joinChar '/' (parts.take j) = q) :
    lookupKey (addAncestors parts ks) q = some 0 := by
  unfold addAncestors
  apply ancLoop_adds (fun i => joinChar '/' (parts.take i)) _ ks h j _ hfj
  rw [List.mem_range'_1]
  omega

/-- A key with a lookup value is present. -/
theorem hasKey_of_lookup {ks : List (Str × Nat)} {q : Str} {v : Nat}
    (h : lookupKey ks q = some v) : hasKey ks q = true := by
  cases hk : hasKey ks q with
  | true => rfl
  | false =>
    rw [lookupKey_eq_none hk] at h
    exact absurd h (by simp)

/-- A `forEach` iteration preserves the value of a present key. -/
theorem stepEntry_lookup_mono {ks : List (Str × Nat)} {e : Str × Nat}
    {q : Str} {v : Nat} (h : lookupKey ks q = some v) :
    lookupKey (stepEntry ks e) q = some v := by
  unfold stepEntry
  apply addAncestors_lookup_mono
  by_cases hk : hasKey ks e.1 = true
  · rw [if_pos hk]
    exact h
  · rw [if_neg hk]
    exact lookupKey_append_left h _

/-- The interim map of one iteration (entry inserted if absent) still lacks
a key that differs from the entry's path. -/
theorem stepEntry_interim_fresh {ks : List (Str × Nat)} {e : Str × Nat}
    {q : Str} (h : hasKey ks q = false) (heq : e.1 ≠ q) :
    hasKey (if hasKey ks e.1 then ks else ks ++ [e]) q = false := by
  by_cases hk : hasKey ks e.1 = true
  · rw [if_pos hk]
    exact h
  · rw [if_neg hk, hasKey_append, h, Bool.false_or, hasKey]
    simp only [List.any_cons, List.any_nil, Bool.or_false]
    exact decide_eq_false heq

/-- An iteration on entry `e` enters a fresh key `q` exactly when `q` is a
segment prefix of `e`'s path: with its own count when `q` is `e`'s path,
as a synthetic ancestor with count 0 otherwise. -/
theorem stepEntry_cover {ks : List (Str × Nat)} {e : Str × Nat} {q : Str}
    (h : hasKey ks q = false) (hpre : (segs q).IsPrefix (segs e.1)) :
    lookupKey (stepEntry ks e) q = if e.1 = q then some e.2 else some 0 := by
  unfold stepEntry
  by_cases heq : e.1 = q
  · rw [if_pos heq]
    rw [if_neg (by rw [heq]; simp [h])]
    apply addAncestors_lookup_mono
    rw [lookupKey_append_fresh h, if_pos heq]
  · rw [if_neg heq]
    rcases hpre with ⟨t, ht⟩
    have htne : t ≠ [] := by
      intro h0
      rw [h0, List.append_nil] at ht
      exact heq (by rw [← joinPath_segs e.1, ← joinPath_segs q, ht])
    have hi1 : 1 ≤ (segs q).length :=
      List.length_pos.mpr (segs_ne_nil q)
    have hi2 : (segs q).length < (segs e.1).length := by
      rw [← ht, List.length_append]
      have := List.length_pos.mpr htne
      omega
    have htake : (segs e.1).take (segs q).length = segs q := by
      rw [← ht]
      exact List.take_left _ _
    have hjoin : joinChar '/' ((segs e.1).take (segs q).length) = q := by
      rw [htake, joinPath_segs]
    exact addAncestors_adds (stepEntry_interim_fresh h heq) hi1 hi2 hjoin

/-- An iteration on entry `e` does not enter a key that is not a segment
prefix of `e`'s path. -/
theorem stepEntry_fresh {ks : List (Str × Nat)} {e : Str × Nat} {q : Str}
    (h : hasKey ks q = false) (hnp : ¬ (segs q).IsPrefix (segs e.1)) :
    hasKey (stepEntry ks e) q = false := by
  unfold stepEntry
  have heq : e.1 ≠ q := by
    intro hq
    exact hnp (hq ▸ List.prefix_refl _)
  apply addAncestors_fresh (stepEntry_interim_fresh h heq)
  intro i hi1 hi2 hji
  apply hnp
  have hne : (segs e.1).take i ≠ [] := by
    intro h0
    rcases List.take_eq_nil_iff.mp h0 with h0 | h0
    · omega
    · exact segs_ne_nil e.1 h0
  have hsf : ∀ l ∈ (segs e.1).take i, '/' ∉ l :=
    fun l hl => splitChar_not_mem '/' e.1 l (List.mem_of_mem_take hl)
  have hq : segs q = (segs e.1).take i := by
    rw [← hji, segs_joinPath hne hsf]
  rw [hq]
  exact List.take_prefix i _

/-- The lookup value after the whole `folderCounts.forEach` pass: an
already-present key keeps its value; otherwise the first entry whose path
the key prefixes decides it (the key's own count, or a synthetic 0). -/
theorem foldl_stepEntry_lookup : ∀ (entries : List (Str × Nat))
    (ks : List (Str × Nat)) (p : Str),
    lookupKey (entries.foldl stepEntry ks) p =
      if hasKey ks p then lookupKey ks p
      else
        match entries.find?
            (fun e => decide ((segs p).IsPrefix (segs e.1))) with
        | none => none
        | some e => if e.1 = p then some e.2 else some 0 := by
  intro entries
  induction entries with
  | nil =>
    intro ks p
    by_cases hk : hasKey ks p = true
    · rw [List.foldl_nil, if_pos hk]
    · rw [List.foldl_nil, if_neg hk, List.find?_nil]
      exact lookupKey_eq_none (by simpa using hk)
  | cons e es ih =>
    intro ks p
    rw [List.foldl_cons]
    by_cases hk : hasKey ks p = true
    · rw [if_pos hk]
      rcases lookupKey_isSome hk with ⟨v, hv⟩
      have hmono := stepEntry_lookup_mono (e := e) hv
      rw [ih (stepEntry ks e) p, if_pos (hasKey_of_lookup hmono), hmono, hv]
    · rw [if_neg hk]
      by_cases hcov : (segs p).IsPrefix (segs e.1)
      · rw [List.find?_cons_of_pos _ (by simpa using hcov)]
        have hstep := stepEntry_cover (by simpa using hk) hcov
        have hsome : ∃ v, lookupKey (stepEntry ks e) p = some v := by
          rw [hstep]
          by_cases h1 : e.1 = p
          · exact ⟨e.2, by rw [if_pos h1]⟩
          · exact ⟨0, by rw [if_neg h1]⟩
        rcases hsome with ⟨v, hv⟩
        rw [ih (stepEntry ks e) p, if_pos (hasKey_of_lookup hv), hstep]
      · rw [List.find?_cons_of_neg _ (by simpa using hcov)]
        have hstep := stepEntry_fresh (by simpa using hk) hcov
        rw [ih (stepEntry ks e) p, if_neg (by simp [hstep])]

-- ============================================================================
-- The per-folder counting pass
-- ============================================================================

/-- Bumping a counter preserves the keys' first components. -/
theorem bumpCount_fst_eq (k : Str) (kv : Str × Nat) :
    (if kv.1 = k then (kv.1, kv.2 + 1) else kv).1 = kv.1 := by
  by_cases h : kv.1 = k <;> simp [h]

/-- The bumped key's value: one more than before, starting at 1. -/
theorem bumpCount_lookup_self (m : List (Str × Nat)) (k : Str) :
    lookupKey (bumpCount m k) k =
      match lookupKey m k with
      | some v => some (v + 1)
      | none => some 1 := by
  rw [bumpCount]
  by_cases hk : m.any (fun kv => decide (kv.1 = k)) = true
  · rw [if_pos hk]
    rw [lookupKey, List.find?_map]
    have hcong : ((fun kv : Str × Nat => decide (kv.1 = k)) ∘
        (fun kv : Str × Nat => if kv.1 = k then (kv.1, kv.2 + 1) else kv)) =
        (fun kv : Str × Nat => decide (kv.1 = k)) := by
      funext kv
      simp only [Function.comp_apply, bumpCount_fst_eq]
    rw [hcong]
    cases hf : m.find? (fun kv => decide (kv.1 = k)) with
    | none =>
      rw [List.any_eq_true] at hk
      rcases hk with ⟨kv, hkv, hp⟩
      rw [List.find?_eq_none] at hf
      exact absurd hp (hf kv hkv)
    | some kv0 =>
      have hp := List.find?_some hf
      have hkvk : kv0.1 = k := of_decide_eq_true hp
      rw [lookupKey, hf, Option.map_some', Option.map_some', Option.map_some']
      simp [hkvk]
  · rw [if_neg hk]
    have hk' : hasKey m k = false := by
      rw [hasKey]
      exact Bool.eq_false_iff.mpr hk
    rw [lookupKey_append_fresh hk', lookupKey_eq_none hk', if_pos rfl]

/-- Bumping one key leaves every other key's value unchanged. -/
theorem bumpCount_lookup_other {m : List (Str × Nat)} {k q : Str}
    (hne : q ≠ k) : lookupKey (bumpCount m k) q = lookupKey m q := by
  rw [bumpCount]
  by_cases hk : m.any (fun kv => decide (kv.1 = k)) = true
  · rw [if_pos hk]
    rw [lookupKey, List.find?_map]
    have hcong : ((fun kv : Str × Nat => decide (kv.1 = q)) ∘
        (fun kv : Str × Nat => if kv.1 = k then (kv.1, kv.2 + 1) else kv)) =
        (fun kv : Str × Nat => decide (kv.1 = q)) := by
      funext kv
      simp only [Function.comp_apply, bumpCount_fst_eq]
    rw [hcong]
    cases hf : m.find? (fun kv => decide (kv.1 = q)) with
    | none => rw [lookupKey, hf]; rfl
    | some kv0 =>
      have hp := List.find?_some hf
      have hkvq : kv0.1 = q := of_decide_eq_true hp
      rw [lookupKey, hf, Option.map_some', Option.map_some', Option.map_some']
      have : kv0.1 ≠ k := by rw [hkvq]; exact hne
      simp [this]
  · rw [if_neg hk]
    cases hq : lookupKey m q with
    | some v => rw [lookupKey_append_left hq]
    | none =>
      have hq' : hasKey m q = false := by
        cases h : hasKey m q with
        | false => rfl
        | true =>
          rcases lookupKey_isSome h with ⟨v, hv⟩
          rw [hv] at hq
          exact absurd hq (by simp)
      rw [lookupKey_append_fresh hq', if_neg (fun h => hne h.symm)]

/-- The folder-count pass counts the documents per exact folder path. -/
theorem foldl_bump_lookup : ∀ (docs : List FlatDocument)
    (m : List (Str × Nat)) (q : Str),
    lookupKey (docs.foldl (fun m doc => bumpCount m doc.folderPath) m) q =
      match lookupKey m q with
      | some v =>
        some (v + docs.countP (fun d => decide (d.folderPath = q)))
      | none =>
        if docs.any (fun d => decide (d.folderPath = q)) then
          some (docs.countP (fun d => decide (d.folderPath = q)))
        else none := by
  intro docs
  induction docs with
  | nil =>
    intro m q
    cases h : lookupKey m q <;> simp [h]
  | cons d ds ih =>
    intro m q
    rw [List.foldl_cons, ih]
    by_cases hd : d.folderPath = q
    · subst hd
      rw [bumpCount_lookup_self m d.folderPath]
      cases hm : lookupKey m d.folderPath with
      | some v =>
        simp [List.countP_cons]
        omega
      | none =>
        simp [List.countP_cons, List.any_cons]
        omega
    · rw [bumpCount_lookup_other (fun h => hd h.symm)]
      cases hm : lookupKey m q with
      | some v => simp [List.countP_cons, hd]
      | none => simp [List.countP_cons, List.any_cons, hd]

/-- Bumping preserves keys, or appends the new one. -/
theorem bumpCount_map_fst (m : List (Str × Nat)) (k : Str) :
    (bumpCount m k).map Prod.fst =
      if m.any (fun kv => decide (kv.1 = k)) then m.map Prod.fst
      else m.map Prod.fst ++ [k] := by
  rw [bumpCount]
  by_cases hk : m.any (fun kv => decide (kv.1 = k)) = true
  · rw [if_pos hk, if_pos hk, List.map_map]
    apply List.map_congr_left
    intro kv _
    exact bumpCount_fst_eq k kv
  · rw [if_neg hk, if_neg hk, List.map_append]
    rfl

/-- The key list of the folder-count pass is the first-occurrence
deduplication of the documents' folder paths. -/
theorem foldl_bump_map_fst : ∀ (docs : List FlatDocument)
    (m : List (Str × Nat)),
    (docs.foldl (fun m doc => bumpCount m doc.folderPath) m).map Prod.fst =
      docs.foldl (fun acc d =>
        if acc.any (fun y => decide (y = d.folderPath)) then acc
        else acc ++ [d.folderPath]) (m.map Prod.fst) := by
  intro docs
  induction docs with
  | nil => intro m; rfl
  | cons d ds ih =>
    intro m
    rw [List.foldl_cons, List.foldl_cons, ih, bumpCount_map_fst]
    have hany : (m.map Prod.fst).any (fun y => decide (y = d.folderPath)) =
        m.any (fun kv => decide (kv.1 = d.folderPath)) := by
      induction m with
      | nil => rfl
      | cons kv m ihm => simp [List.any_cons, ihm]
    rw [hany]

/-- Appending to the accumulator never changes an existing `find?` result of
the deduplicating fold. -/
theorem dedupFold_find_mono {q : Str → Bool} : ∀ (xs : List Str)
    (acc : List Str) {a : Str}, acc.find? q = some a →
    (xs.foldl (fun acc x =>
      if acc.any (fun y => decide (y = x)) then acc else acc ++ [x])
        acc).find? q = some a
  | [], _, _, h => h
  | x :: xs, acc, a, h => by
    rw [List.foldl_cons]
    by_cases hx : acc.any (fun y => decide (y = x)) = true
    · rw [if_pos hx]
      exact dedupFold_find_mono xs acc h
    · rw [if_neg hx]
      apply dedupFold_find_mono xs
      rw [List.find?_append, h]
      rfl

/-- First-occurrence deduplication preserves the first element satisfying
any predicate. -/
theorem dedupFold_find {q : Str → Bool} : ∀ (xs : List Str)
    (acc : List Str), acc.find? q = none →
    (xs.foldl (fun acc x =>
      if acc.any (fun y => decide (y = x)) then acc else acc ++ [x])
        acc).find? q = xs.find? q
  | [], acc, h => by rw [List.foldl_nil, List.find?_nil]; exact h
  | x :: xs, acc, h => by
    rw [List.foldl_cons]
    by_cases hqx : q x = true
    · have hxacc : acc.any (fun y => decide (y = x)) = false := by
        rw [List.any_eq_false]
        intro y hy hyx
        have : y = x := of_decide_eq_true hyx
        subst this
        exact (List.find?_eq_none.mp h y hy) hqx
      rw [if_neg (by simp [hxacc])]
      have happ : (acc ++ [x]).find? q = some x := by
        rw [List.find?_append, h, Option.none_or, List.find?_cons_of_pos _ hqx]
      rw [dedupFold_find_mono xs _ happ, List.find?_cons_of_pos _ hqx]
    · rw [List.find?_cons_of_neg _ (by simpa using hqx)]
      by_cases hx : acc.any (fun y => decide (y = x)) = true
      · rw [if_pos hx]
        exact dedupFold_find xs acc h
      · rw [if_neg hx]
        apply dedupFold_find xs
        rw [List.find?_append, h, Option.none_or]
        rw [List.find?_cons_of_neg _ (by simpa using hqx), List.find?_nil]

/-- First-occurrence deduplication produces distinct entries. -/
theorem dedupFold_nodup : ∀ (xs : List Str) (acc : List Str), acc.Nodup →
    (xs.foldl (fun acc x =>
      if acc.any (fun y => decide (y = x)) then acc else acc ++ [x])
        acc).Nodup
  | [], _, h => h
  | x :: xs, acc, h => by
    rw [List.foldl_cons]
    by_cases hx : acc.any (fun y => decide (y = x)) = true
    · rw [if_pos hx]
      exact dedupFold_nodup xs acc h
    · rw [if_neg hx]
      apply dedupFold_nodup xs
      have hxne : x ∉ acc := by
        intro hmem
        exact absurd (List.any_eq_true.mpr ⟨x, hmem, by simp⟩) hx
      simp [List.nodup_append, h, hxne]

/-- The deduplicating fold over documents, rephrased over their folder
paths. -/
theorem dedupFold_over_paths (docs : List FlatDocument) :
    (docs.foldl (fun acc d =>
      if acc.any (fun y => decide (y = d.folderPath)) then acc
      else acc ++ [d.folderPath]) ([] : List Str)) =
    ((docs.map (fun d => d.folderPath)).foldl (fun acc x =>
      if acc.any (fun y => decide (y = x)) then acc else acc ++ [x]) []) := by
  rw [List.foldl_map]

/-- The folder-count pass has distinct keys. -/
theorem folderCounts_nodup (docs : List FlatDocument) :
    ((folderCountsOf docs).map Prod.fst).Nodup := by
  rw [folderCountsOf, foldl_bump_map_fst, List.map_nil, dedupFold_over_paths]
  exact dedupFold_nodup _ [] List.nodup_nil

/-- The ancestor loop preserves key distinctness. -/
theorem ancLoop_nodup (f : Nat → Str) : ∀ (L : List Nat)
    (acc : List (Str × Nat)), ((acc.map Prod.fst).Nodup) →
    (((L.foldl (fun acc i =>
      if hasKey acc (f i) then acc else acc ++ [(f i, 0)]) acc).map
        Prod.fst).Nodup)
  | [], _, h => h
  | i :: L, acc, h => by
    rw [List.foldl_cons]
    by_cases hk : hasKey acc (f i) = true
    · rw [if_pos hk]
      exact ancLoop_nodup f L acc h
    · rw [if_neg hk]
      apply ancLoop_nodup f L
      rw [List.map_append]
      have : f i ∉ acc.map Prod.fst :=
        hasKey_eq_false_iff.mp (by simpa using hk)
      simp [List.nodup_append, h, this]

/-- A `forEach` iteration preserves key distinctness. -/
theorem stepEntry_nodup {ks : List (Str × Nat)} {e : Str × Nat}
    (h : (ks.map Prod.fst).Nodup) : ((stepEntry ks e).map Prod.fst).Nodup := by
  unfold stepEntry addAncestors
  apply ancLoop_nodup
  by_cases hk : hasKey ks e.1 = true
  · rw [if_pos hk]
    exact h
  · rw [if_neg hk]
    rw [List.map_append]
    have : e.1 ∉ ks.map Prod.fst := hasKey_eq_false_iff.mp (by simpa using hk)
    simp [List.nodup_append, h, this]

/-- The node map has distinct keys. -/
theorem buildKeys_nodup (docs : List FlatDocument) :
    ((buildKeys docs).map Prod.fst).Nodup := by
  rw [buildKeys]
  have : ∀ (entries : List (Str × Nat)) (ks : List (Str × Nat)),
      (ks.map Prod.fst).Nodup →
      ((entries.foldl stepEntry ks).map Prod.fst).Nodup := by
    intro entries
    induction entries with
    | nil => intro ks h; exact h
    | cons e es ih =>
      intro ks h
      rw [List.foldl_cons]
      exact ih _ (stepEntry_nodup h)
  exact this _ [] List.nodup_nil

/-- The key characterization of the node map: a path has an entry exactly
when it is a segment prefix of some document's folder path, and its count
is the exact per-folder document count when the first document at or below
it sits exactly at it, and the synthetic 0 otherwise. -/
theorem buildKeys_char (docs : List FlatDocument) (p : Str) :
    lookupKey (buildKeys docs) p =
      match docs.find?
          (fun d => decide ((segs p).IsPrefix (segs d.folderPath))) with
      | none => none
      | some d0 =>
        if d0.folderPath = p then
          some (docs.countP (fun d' => decide (d'.folderPath = p)))
        else some 0 := by
  rw [buildKeys, foldl_stepEntry_lookup, if_neg (by simp [hasKey])]
  have hfind : ((folderCountsOf docs).find?
      (fun e => decide ((segs p).IsPrefix (segs e.1)))).map Prod.fst =
      (docs.find?
        (fun d => decide ((segs p).IsPrefix (segs d.folderPath)))).map
          (fun d => d.folderPath) := by
    have h1 : ((folderCountsOf docs).map Prod.fst).find?
        (fun y => decide ((segs p).IsPrefix (segs y))) =
        ((folderCountsOf docs).find?
          (fun e => decide ((segs p).IsPrefix (segs e.1)))).map Prod.fst := by
      rw [List.find?_map]
      rfl
    have h2 : ((folderCountsOf docs).map Prod.fst).find?
        (fun y => decide ((segs p).IsPrefix (segs y))) =
        (docs.map (fun d => d.folderPath)).find?
          (fun y => decide ((segs p).IsPrefix (segs y))) := by
      rw [folderCountsOf, foldl_bump_map_fst, List.map_nil,
        dedupFold_over_paths]
      exact dedupFold_find _ [] List.find?_nil
    have h3 : (docs.map (fun d => d.folderPath)).find?
        (fun y => decide ((segs p).IsPrefix (segs y))) =
        (docs.find?
          (fun d => decide ((segs p).IsPrefix (segs d.folderPath)))).map
            (fun d => d.folderPath) := by
      rw [List.find?_map]
      rfl
    rw [← h1, h2, h3]
  cases hd : docs.find?
      (fun d => decide ((segs p).IsPrefix (segs d.folderPath))) with
  | none =>
    rw [hd, Option.map_none'] at hfind
    have : (folderCountsOf docs).find?
        (fun e => decide ((segs p).IsPrefix (segs e.1))) = none := by
      cases hfc : (folderCountsOf docs).find?
          (fun e => decide ((segs p).IsPrefix (segs e.1))) with
      | none => rfl
      | some e => rw [hfc, Option.map_some'] at hfind; exact absurd hfind (by simp)
    rw [this]
  | some d0 =>
    rw [hd, Option.map_some'] at hfind
    cases hfc : (folderCountsOf docs).find?
        (fun e => decide ((segs p).IsPrefix (segs e.1))) with
    | none => rw [hfc, Option.map_none'] at hfind; exact absurd hfind (by simp)
    | some e =>
      rw [hfc, Option.map_some'] at hfind
      have hefst : e.1 = d0.folderPath := by
        injection hfind
      dsimp only
      by_cases hdp : d0.folderPath = p
      · rw [if_pos hdp, if_pos (by rw [hefst, hdp])]
        have hmem : e ∈ folderCountsOf docs := List.mem_of_find?_eq_some hfc
        have hlk : lookupKey (folderCountsOf docs) p = some e.2 := by
          have := lookupKey_of_mem_nodup (folderCounts_nodup docs) hmem
          rwa [hefst, hdp] at this
        have hcnt := foldl_bump_lookup docs [] p
        rw [show folderCountsOf docs =
          docs.foldl (fun m doc => bumpCount m doc.folderPath) [] from rfl]
          at hlk
        rw [hlk] at hcnt
        have hnone : lookupKey ([] : List (Str × Nat)) p = none := rfl
        rw [hnone] at hcnt
        by_cases hany : docs.any (fun d => decide (d.folderPath = p)) = true
        · rw [if_pos hany] at hcnt
          injection hcnt with hv
          rw [hv]
        · rw [if_neg hany] at hcnt
          exact absurd hcnt (by simp)
      · rw [if_neg hdp, if_neg (by rw [hefst]; exact hdp)]

-- ============================================================================
-- Navigating the built tree
-- ============================================================================

/-- The entries of one tree level (an observer for the proofs): the roots at
the top, the children of the folder `par` below it. -/
def levelEntries (ks : List (Str × Nat)) (par : List Str) :
    List (Str × Nat) :=
  if par = [] then rootKeys ks else childKeys ks (joinChar '/' par)

/-- The fields of a built node do not depend on the fuel. -/
theorem buildNode_name (ks : List (Str × Nat)) (fuel : Nat) (kv : Str × Nat) :
    (buildNode ks fuel kv).name = lastSeg kv.1 := by
  cases fuel <;> rfl

/-- The path of a built node is its key. -/
theorem buildNode_path (ks : List (Str × Nat)) (fuel : Nat) (kv : Str × Nat) :
    (buildNode ks fuel kv).path = kv.1 := by
  cases fuel <;> rfl

/-- The document count of a built node is its stored count. -/
theorem buildNode_count (ks : List (Str × Nat)) (fuel : Nat) (kv : Str × Nat) :
    (buildNode ks fuel kv).documentCount = kv.2 := by
  cases fuel <;> rfl

/-- Splitting a string containing the separator yields at least two
components. -/
theorem splitChar_length_ge_two {sep : Char} : ∀ {s : Str}, sep ∈ s →
    2 ≤ (splitChar sep s).length := by
  intro s
  induction s with
  | nil => intro h; exact absurd h (List.not_mem_nil sep)
  | cons c cs ih =>
    intro h
    rw [splitChar]
    cases hsp : splitChar sep cs with
    | nil => exact absurd hsp (splitChar_ne_nil sep cs)
    | cons l ls =>
      dsimp only
      by_cases hc : c = sep
      · rw [if_pos hc]
        simp
      · rw [if_neg hc]
        rcases List.mem_cons.mp h with rfl | h
        · exact absurd rfl hc
        · have := ih h
          rw [hsp] at this
          simpa using this

/-- `includes('/')` agrees with membership. -/
theorem contains_slash_iff (s : Str) : s.contains '/' = true ↔ '/' ∈ s := by
  simp [List.contains_iff_exists_mem_beq]

/-- The last segment of an extended path. -/
theorem lastSeg_of_segs {p : Str} {xs : List Str} {s : Str}
    (h : segs p = xs ++ [s]) : lastSeg p = s := by
  rw [lastSeg, h, List.getLastD_concat]

/-- Membership in a tree level: exactly the keys whose segments extend the
level's path by one segment. -/
theorem mem_levelEntries_iff {ks : List (Str × Nat)} {par : List Str}
    {kv : Str × Nat} (hsfpar : ∀ l ∈ par, '/' ∉ l) :
    kv ∈ levelEntries ks par ↔
      kv ∈ ks ∧ segs kv.1 = par ++ [lastSeg kv.1] := by
  rw [levelEntries]
  by_cases hpar : par = []
  · subst hpar
    rw [if_pos rfl, rootKeys, List.mem_filter]
    constructor
    · rintro ⟨hmem, hns⟩
      have hnoslash : '/' ∉ kv.1 := by
        intro hmem2
        rw [Bool.not_eq_true'] at hns
        rw [← contains_slash_iff kv.1] at hmem2
        rw [hmem2] at hns
        exact absurd hns (by simp)
      have hsegs := segs_length_one hnoslash
      refine ⟨hmem, ?_⟩
      rw [hsegs, List.nil_append, lastSeg, hsegs]
      rfl
    · rintro ⟨hmem, hsegs⟩
      rw [List.nil_append] at hsegs
      refine ⟨hmem, ?_⟩
      have hone : (segs kv.1).length = 1 := by rw [hsegs]; rfl
      have hnoslash : '/' ∉ kv.1 := by
        intro hmem2
        have := splitChar_length_ge_two hmem2
        rw [show splitChar '/' kv.1 = segs kv.1 from rfl, hone] at this
        omega
      rw [Bool.not_eq_true']
      cases hc : kv.1.contains '/' with
      | false => rfl
      | true => exact absurd (contains_slash_iff kv.1 |>.mp hc) hnoslash
  · rw [if_neg hpar, childKeys, List.mem_filter]
    constructor
    · rintro ⟨hmem, hcond⟩
      rw [Bool.and_eq_true] at hcond
      have hlen : 1 < (segs kv.1).length := of_decide_eq_true hcond.1
      have hpp : parentPath kv.1 = joinChar '/' par :=
        of_decide_eq_true hcond.2
      have hSne : segs kv.1 ≠ [] := segs_ne_nil kv.1
      have hdne : (segs kv.1).dropLast ≠ [] := by
        intro h0
        have := List.length_dropLast (segs kv.1)
        rw [h0] at this
        simp at this
        omega
      have hdsf : ∀ l ∈ (segs kv.1).dropLast, '/' ∉ l :=
        fun l hl => splitChar_not_mem '/' kv.1 l
          ((List.dropLast_sublist _).subset hl)
      have hdrop : (segs kv.1).dropLast = par := by
        have h1 : segs (parentPath kv.1) = (segs kv.1).dropLast := by
          rw [parentPath]
          exact segs_joinPath hdne hdsf
        have h2 : segs (joinChar '/' par) = par :=
          segs_joinPath hpar hsfpar
        rw [← h1, hpp, h2]
      have hconcat : segs kv.1 =
          (segs kv.1).dropLast ++ [(segs kv.1).getLast hSne] :=
        (List.dropLast_concat_getLast hSne).symm
      have hlast : lastSeg kv.1 = (segs kv.1).getLast hSne :=
        lastSeg_of_segs hconcat
      refine ⟨hmem, ?_⟩
      rw [hlast, ← hdrop]
      exact hconcat
    · rintro ⟨hmem, hsegs⟩
      refine ⟨hmem, ?_⟩
      rw [Bool.and_eq_true]
      constructor
      · apply decide_eq_true
        rw [hsegs, List.length_append]
        have : 0 < par.length := List.length_pos.mpr hpar
        simp
        omega
      · apply decide_eq_true
        rw [parentPath, hsegs, List.dropLast_concat]

/-- Finding the entry of a stored key from its lookup value. -/
theorem entry_of_lookup {ks : List (Str × Nat)} {p : Str} {c : Nat}
    (h : lookupKey ks p = some c) : (p, c) ∈ ks := by
  rw [lookupKey] at h
  cases hf : ks.find? (fun kv => decide (kv.1 = p)) with
  | none => rw [hf] at h; exact absurd h (by simp)
  | some kv =>
    rw [hf, Option.map_some'] at h
    have hp := List.find?_some hf
    have h1 : kv.1 = p := of_decide_eq_true hp
    have h2 : kv.2 = c := by injection h
    have := List.mem_of_find?_eq_some hf
    rwa [show (p, c) = kv from by rw [← h1, ← h2]]

/-- In a level of the built tree, `find?` by name locates exactly the node
of the key extending the level's path by that segment. -/
theorem levelFind {ks : List (Str × Nat)} (hnd : (ks.map Prod.fst).Nodup)
    (par : List Str) (s : Str) (hsf : ∀ l ∈ par ++ [s], '/' ∉ l)
    {c : Nat} (hc : lookupKey ks (joinChar '/' (par ++ [s])) = some c)
    (fuel : Nat) :
    ((sortNodes ((levelEntries ks par).map (buildNode ks fuel))).find?
      (fun n => decide (n.name = s))) =
      some (buildNode ks fuel (joinChar '/' (par ++ [s]), c)) := by
  have hsfpar : ∀ l ∈ par, '/' ∉ l :=
    fun l hl => hsf l (List.mem_append_left _ hl)
  have hcur_segs : segs (joinChar '/' (par ++ [s])) = par ++ [s] :=
    segs_joinPath (by simp) hsf
  have hmemks : (joinChar '/' (par ++ [s]), c) ∈ ks := entry_of_lookup hc
  have hlast : lastSeg (joinChar '/' (par ++ [s])) = s :=
    lastSeg_of_segs hcur_segs
  have hlv : (joinChar '/' (par ++ [s]), c) ∈ levelEntries ks par := by
    rw [mem_levelEntries_iff hsfpar]
    exact ⟨hmemks, by rw [hlast]; exact hcur_segs⟩
  apply find?_unique
  · rw [sortNodes, List.mem_insertionSort]
    exact List.mem_map.mpr ⟨_, hlv, rfl⟩
  · rw [buildNode_name, hlast]
    simp
  · intro y hy hpy
    rw [sortNodes, List.mem_insertionSort] at hy
    rcases List.mem_map.mp hy with ⟨kv2, hkv2, rfl⟩
    have hname : lastSeg kv2.1 = s := by
      rw [buildNode_name] at hpy
      exact of_decide_eq_true hpy
    rw [mem_levelEntries_iff hsfpar] at hkv2
    rcases hkv2 with ⟨hkv2m, hkv2s⟩
    have hpath : kv2.1 = joinChar '/' (par ++ [s]) := by
      rw [← joinPath_segs kv2.1, hkv2s, hname]
    have hkv2eq : kv2 = (joinChar '/' (par ++ [s]), c) :=
      mem_nodup_key_eq hnd hkv2m hmemks hpath
    rw [hkv2eq]

/-- Walking the built tree along key segments: starting from any level
whose path `par` every extension `par ++ ss.take k` is a stored key,
`findNode` reaches the node of `par ++ ss`, whose path and stored count are
the key's. -/
theorem findNode_level {ks : List (Str × Nat)}
    (hnd : (ks.map Prod.fst).Nodup) :
    ∀ (ss : List Str) (par : List Str) (fuel : Nat), ss ≠ [] →
    (∀ l ∈ par ++ ss, '/' ∉ l) →
    (∀ k, 1 ≤ k → k ≤ ss.length →
      hasKey ks (joinChar '/' (par ++ ss.take k)) = true) →
    ss.length ≤ fuel + 1 →
    ∃ (node : FolderTreeNode) (c : Nat),
      findNode (sortNodes ((levelEntries ks par).map (buildNode ks fuel)))
          ss = some node ∧
      node.path = joinChar '/' (par ++ ss) ∧
      lookupKey ks (joinChar '/' (par ++ ss)) = some c ∧
      node.documentCount = c := by
  intro ss
  induction ss with
  | nil => intro par fuel hne; exact absurd rfl hne
  | cons s rest ih =>
    intro par fuel _ hsf hkeys hfuel
    have hk1 : hasKey ks (joinChar '/' (par ++ [s])) = true := by
      have := hkeys 1 (by omega) (by simp)
      simpa using this
    rcases lookupKey_isSome hk1 with ⟨c1, hc1⟩
    have hsf1 : ∀ l ∈ par ++ [s], '/' ∉ l := by
      intro l hl
      rcases List.mem_append.mp hl with hl | hl
      · exact hsf l (List.mem_append_left _ hl)
      · rcases List.mem_singleton.mp hl with rfl
        exact hsf l (List.mem_append_right _ (List.mem_cons_self _ _))
    have hfind := levelFind hnd par s hsf1 hc1 fuel
    cases rest with
    | nil =>
      refine ⟨buildNode ks fuel (joinChar '/' (par ++ [s]), c1), c1, ?_, ?_,
        hc1, buildNode_count _ _ _⟩
      · rw [findNode]
        exact hfind
      · rw [buildNode_path]
    | cons r rs =>
      rw [List.length_cons] at hfuel
      have hfuel1 : 1 ≤ fuel := by
        have : 1 ≤ (r :: rs).length := by simp
        omega
      rcases Nat.exists_eq_add_of_le hfuel1 with ⟨fl, hfl⟩
      have hfl' : fuel = fl + 1 := by omega
      subst hfl'
      have hchild : (buildNode ks (fl + 1)
          (joinChar '/' (par ++ [s]), c1)).children =
          sortNodes ((levelEntries ks (par ++ [s])).map (buildNode ks fl)) := by
        rw [buildNode]
        rw [FolderTreeNode.children]
        rw [levelEntries, if_neg (by simp)]
      have hih := ih (par ++ [s]) fl (by simp) ?hsf2 ?hkeys2 ?hfuel2
      case hsf2 =>
        intro l hl
        apply hsf l
        rw [List.append_assoc] at hl
        simpa using hl
      case hkeys2 =>
        intro k hk1' hk2'
        simp only [List.length_cons] at hk2'
        have := hkeys (k + 1) (by omega)
          (by simp only [List.length_cons]; omega)
        rw [List.take_succ_cons, ← List.singleton_append,
          ← List.append_assoc] at this
        exact this
      case hfuel2 =>
        simp only [List.length_cons] at hfuel ⊢
        omega
      rcases hih with ⟨node, c, hfindrest, hpath, hlook, hcount⟩
      refine ⟨node, c, ?_, ?_, ?_, hcount⟩
      · rw [findNode.eq_3 _ s (r :: rs) (by simp), hfind]
        dsimp only
        rw [hchild]
        exact hfindrest
      · rw [hpath, List.append_assoc]
        rfl
      · rw [← hlook, List.append_assoc]
        rfl

/-- The initial value bounds the running maximum. -/
theorem foldl_max_init_le : ∀ (ks : List (Str × Nat)) (init : Nat),
    init ≤ ks.foldl (fun m kv => max m (segs kv.1).length) init
  | [], _ => Nat.le_refl _
  | kv :: ks, init => by
    rw [List.foldl_cons]
    exact le_trans (Nat.le_max_left _ _) (foldl_max_init_le ks _)

/-- Every key's depth is bounded by `maxSegs`. -/
theorem le_maxSegs : ∀ {ks : List (Str × Nat)} {kv : Str × Nat}, kv ∈ ks →
    (segs kv.1).length ≤ maxSegs ks := by
  have aux : ∀ (ks : List (Str × Nat)) (init : Nat) (kv : Str × Nat),
      kv ∈ ks → (segs kv.1).length ≤
        ks.foldl (fun m kv => max m (segs kv.1).length) init := by
    intro ks
    induction ks with
    | nil => intro init kv h; exact absurd h (List.not_mem_nil kv)
    | cons kv0 ks ih =>
      intro init kv h
      rw [List.foldl_cons]
      rcases List.mem_cons.mp h with rfl | h
      · exact le_trans (Nat.le_max_right _ _) (foldl_max_init_le ks _)
      · exact ih _ kv h
  intro ks kv h
  exact aux ks 0 kv h

/-- A path covered by some document's folder path is a key of the node
map. -/
theorem buildKeys_hasKey_of_cover {docs : List FlatDocument} {p : Str}
    {d0 : FlatDocument}
    (h : docs.find?
      (fun d => decide ((segs p).IsPrefix (segs d.folderPath))) = some d0) :
    hasKey (buildKeys docs) p = true := by
  have hchar := buildKeys_char docs p
  rw [h] at hchar
  dsimp only at hchar
  by_cases hdp : d0.folderPath = p
  · rw [if_pos hdp] at hchar
    exact hasKey_of_lookup hchar
  · rw [if_neg hdp] at hchar
    exact hasKey_of_lookup hchar

/-- C4, amended: the folder tree contains a node at every non-empty prefix
(in path segments) of every document's folder path, including the full
path; the node's path is that prefix.  Its `documentCount` is the number of
documents whose folder path equals the node's path exactly — but only when
the first document lying at or strictly below the node's path lies exactly
at it; when a strictly deeper document comes first in the collection, the
node is created as a synthetic ancestor and keeps `documentCount` 0 (in
particular, prefixes holding no documents of their own always count 0, and
no count includes subtree totals). -/
theorem buildFolderTree_prefix_nodes (docs : List FlatDocument)
    (d : FlatDocument) (hd : d ∈ docs) (k : Nat) (hk1 : 1 ≤ k)
    (hk2 : k ≤ (segs d.folderPath).length) :
    ∃ node : FolderTreeNode,
      findNode (buildFolderTreeFromDocuments docs)
          ((segs d.folderPath).take k) = some node ∧
      node.path = joinChar '/' ((segs d.folderPath).take k) ∧
      node.documentCount =
        (match docs.find? (fun d' =>
            decide (((segs d.folderPath).take k).IsPrefix
              (segs d'.folderPath))) with
        | some d0 =>
          if d0.folderPath = joinChar '/' ((segs d.folderPath).take k) then
            docs.countP (fun d' => decide (d'.folderPath =
              joinChar '/' ((segs d.folderPath).take k)))
          else 0
        | none => 0) := by
  classical
  set ks := buildKeys docs with hks
  set ss := (segs d.folderPath).take k with hss
  have hlen : ss.length = k := by
    rw [hss, List.length_take]
    omega
  have hssne : ss ≠ [] := by
    intro h0
    rw [h0] at hlen
    simp at hlen
    omega
  have hsf : ∀ l ∈ ss, '/' ∉ l :=
    fun l hl => splitChar_not_mem '/' d.folderPath l (List.mem_of_mem_take hl)
  have hsegs_p : segs (joinChar '/' ss) = ss := segs_joinPath hssne hsf
  have hcoverj : ∀ j, 1 ≤ j → j ≤ ss.length →
      ∃ d1, docs.find? (fun d' =>
        decide ((segs (joinChar '/' (ss.take j))).IsPrefix
          (segs d'.folderPath))) = some d1 := by
    intro j hj1 hj2
    have htjne : ss.take j ≠ [] := by
      intro h0
      have := congrArg List.length h0
      rw [List.length_take] at this
      simp only [List.length_nil] at this
      omega
    have htsf : ∀ l ∈ ss.take j, '/' ∉ l :=
      fun l hl => hsf l (List.mem_of_mem_take hl)
    have hsegsj : segs (joinChar '/' (ss.take j)) = ss.take j :=
      segs_joinPath htjne htsf
    have hpre : (ss.take j).IsPrefix (segs d.folderPath) := by
      rw [hss, List.take_take]
      have : min j k = j := by omega
      rw [this]
      exact List.take_prefix j _
    have : (docs.find? (fun d' =>
        decide ((segs (joinChar '/' (ss.take j))).IsPrefix
          (segs d'.folderPath)))).isSome := by
      rw [List.find?_isSome]
      exact ⟨d, hd, by rw [hsegsj]; exact decide_eq_true hpre⟩
    exact Option.isSome_iff_exists.mp this
  have hkeys : ∀ j, 1 ≤ j → j ≤ ss.length →
      hasKey ks (joinChar '/' (([] : List Str) ++ ss.take j)) = true := by
    intro j hj1 hj2
    rcases hcoverj j hj1 hj2 with ⟨d1, hd1⟩
    rw [List.nil_append]
    exact buildKeys_hasKey_of_cover hd1
  have hfpkey : hasKey ks d.folderPath = true := by
    have : (docs.find? (fun d' =>
        decide ((segs d.folderPath).IsPrefix (segs d'.folderPath)))).isSome := by
      rw [List.find?_isSome]
      exact ⟨d, hd, decide_eq_true (List.prefix_refl _)⟩
    rcases Option.isSome_iff_exists.mp this with ⟨d1, hd1⟩
    exact buildKeys_hasKey_of_cover hd1
  have hfuel : ss.length ≤ maxSegs ks + 1 := by
    rcases hasKey_exists_mem hfpkey with ⟨kv, hkv, hkvp⟩
    have := le_maxSegs hkv
    rw [hkvp] at this
    rw [hlen]
    omega
  have hnav := findNode_level (buildKeys_nodup docs) ss [] (maxSegs ks)
    hssne (by simpa using hsf) hkeys hfuel
  rcases hnav with ⟨node, c, hfindn, hpath, hlook, hcount⟩
  rw [List.nil_append] at hpath hlook
  have htree : buildFolderTreeFromDocuments docs =
      sortNodes ((levelEntries ks []).map (buildNode ks (maxSegs ks))) := by
    rw [buildFolderTreeFromDocuments, levelEntries, if_pos rfl]
  refine ⟨node, ?_, hpath, ?_⟩
  · rw [htree]
    exact hfindn
  · have hchar := buildKeys_char docs (joinChar '/' ss)
    rw [hsegs_p] at hchar
    rw [hlook] at hchar
    rw [hcount]
    cases hfd : docs.find? (fun d' =>
        decide (ss.IsPrefix (segs d'.folderPath))) with
    | none =>
      rw [hfd] at hchar
      exact absurd hchar.symm (by simp)
    | some d0 =>
      rw [hfd] at hchar
      dsimp only at hchar ⊢
      by_cases hdp : d0.folderPath = joinChar '/' ss
      · rw [if_pos hdp] at hchar ⊢
        injection hchar.symm with hv
        exact hv.symm
      · rw [if_neg hdp] at hchar ⊢
        injection hchar.symm with hv
        exact hv.symm

/-- Witness for `buildFolderTree_prefix_nodes` at a concrete collection
(the prefix `a` of the folder path `a/b`, where the deeper document comes
first and the node keeps the synthetic count 0). -/
theorem buildFolderTree_prefix_nodes_witness :
    ∃ node : FolderTreeNode,
      findNode (buildFolderTreeFromDocuments [nestedDoc, shallowDoc])
          ((segs nestedDoc.folderPath).take 1) = some node ∧
      node.path = joinChar '/' ((segs nestedDoc.folderPath).take 1) ∧
      node.documentCount =
        (match [nestedDoc, shallowDoc].find? (fun d' =>
            decide (((segs nestedDoc.folderPath).take 1).IsPrefix
              (segs d'.folderPath))) with
        | some d0 =>
          if d0.folderPath =
              joinChar '/' ((segs nestedDoc.folderPath).take 1) then
            [nestedDoc, shallowDoc].countP (fun d' => decide (d'.folderPath =
              joinChar '/' ((segs nestedDoc.folderPath).take 1)))
          else 0
        | none => 0) :=
  buildFolderTree_prefix_nodes [nestedDoc, shallowDoc] nestedDoc
    (List.mem_cons_self _ _) 1 (by decide) (by decide)
